import Mathlib

/-!
Shallow embedding of the question-export pipeline of this repository
(the HTML exporter module): JavaScript value coercions, the markup
normalizer `addLexicalClass`, the per-type answer renderers, the image
path rewriter and resolver, the bounded concurrent fetcher
`mapWithConcurrency`, and the partitioning step of `generateExportHTML`.
Strings are modelled as Lean `String`/`List Char`; machine numbers that
matter here are integers; fallible operations return `Option`.
-/

namespace HtmlExport

/-- Model of a JavaScript runtime value as consumed by the renderers:
the untyped `unknown` payloads (`correct_answer` and friends). -/
inductive JVal where
  | undefinedV : JVal
  | null : JVal
  | str : String → JVal
  | num : Int → JVal
  | bool : Bool → JVal
  | arr : List JVal → JVal
  | obj : List (String × JVal) → JVal

mutual

/-- JavaScript `String(v)` coercion for the values modelled by `JVal`. -/
def jsToString : JVal → String
  | .undefinedV => "undefined"
  | .null => "null"
  | .str s => s
  | .num n => toString n
  | .bool b => if b then "true" else "false"
  | .arr xs => jsJoinList xs
  | .obj _ => "[object Object]"

/-- JavaScript `Array.prototype.join(",")` semantics: `null` and
`undefined` elements become empty strings. -/
def jsJoinList : List JVal → String
  | [] => ""
  | [v] => jsElemString v
  | v :: rest => jsElemString v ++ "," ++ jsJoinList rest

/-- One element of a joined array, with the `null`/`undefined` special case. -/
def jsElemString : JVal → String
  | .undefinedV => ""
  | .null => ""
  | v => jsToString v

end

/-- JavaScript truthiness for the values modelled by `JVal`. -/
def jsTruthy : JVal → Bool
  | .undefinedV => false
  | .null => false
  | .str s => !(s == "")
  | .num n => !(n == 0)
  | .bool b => b
  | .arr _ => true
  | .obj _ => true

/-- JavaScript property access `v.k` on a modelled value: object field
lookup, `undefined` otherwise. -/
def getField : JVal → String → JVal
  | .obj fs, k =>
    match fs.find? (fun p => p.1 == k) with
    | some p => p.2
    | none => .undefinedV
  | _, _ => .undefinedV

/-- JavaScript nullish coalescing `v ?? d`. -/
def nullish (v d : JVal) : JVal :=
  match v with
  | .undefinedV => d
  | .null => d
  | v => v

/-! ## Constants of the module -/

def BASE_URL : String := "/api/questions"

def S3_BASE : String := "/api/questions"

def QUESTION_FETCH_CONCURRENCY : Nat := 6

def IMAGE_FETCH_CONCURRENCY : Nat := 10

/-! ## resolveImageUrl -/

/-- JavaScript `s.split("/")` on a character list; note that the empty
string splits to one empty segment, as in JavaScript. -/
def splitSlash : List Char → List (List Char)
  | [] => [[]]
  | c :: r =>
    if c = '/' then [] :: splitSlash r
    else
      match splitSlash r with
      | s :: ss => (c :: s) :: ss
      | [] => [[c]]

/-- JavaScript `segments.join("/")` on character lists. -/
def joinSlash : List (List Char) → List Char
  | [] => []
  | [s] => s
  | s :: rest => s ++ '/' :: joinSlash rest

/-- Embedding of `resolveImageUrl`: strip leading slashes (the
`replace(/^\/+/, "")`), split on `/`, demand at least three segments
with first segment `images`, a nonempty question id and a nonempty
joined filename, and rebuild the remote URL; `none` models `null`. -/
def resolveImageUrl (imgPath : String) : Option String :=
  let normalizedPath : List Char := imgPath.data.dropWhile (fun c => c = '/')
  let parts := splitSlash normalizedPath
  if parts.length < 3 ∨ parts.head? ≠ some "images".data then
    none
  else
    let questionId := parts.getD 1 []
    let filename := joinSlash (parts.drop 2)
    if questionId = [] ∨ filename = [] then
      none
    else
      some (S3_BASE ++ "/" ++ (⟨questionId⟩ : String) ++ "/" ++ (⟨filename⟩ : String))

/-- Substring test at the character-list level, used to state facts
about produced strings. -/
def startsWithL : List Char → List Char → Bool
  | [], _ => true
  | _ :: _, [] => false
  | c :: cs, d :: ds => c = d && startsWithL cs ds

/-- Containment of a pattern anywhere in a character list. -/
def containsSub (pat : List Char) : List Char → Bool
  | [] => startsWithL pat []
  | l@(_ :: r) => startsWithL pat l || containsSub pat r

/-! ## addLexicalClass (the markup normalizer)

The source mutates each paragraph-opening tag found by the global regex
`<p(\s[^>]*)?\s*>`; the callback tests `class\s*=`, the theming class
token and `dir\s*=` on the captured attribute text and patches it. The
embedding below reproduces the regex scan and the three patches at the
character-list level. -/

/-- Matcher for the regex tail `\s*=` starting at a position. -/
def afterWsEq : List Char → Bool
  | [] => false
  | c :: r => if c = '=' then true else if c.isWhitespace then afterWsEq r else false

/-- Consume an exact literal, returning the remainder. -/
def dropLit : List Char → List Char → Option (List Char)
  | [], l => some l
  | _ :: _, [] => none
  | c :: cs, d :: ds => if d = c then dropLit cs ds else none

/-- Does `lit` followed by `\s*=` match at this position? -/
def litEqAt (lit l : List Char) : Bool :=
  match dropLit lit l with
  | some r => afterWsEq r
  | none => false

/-- Does `lit\s*=` match anywhere in the list (regex substring search)? -/
def hasLitEq (lit : List Char) : List Char → Bool
  | [] => false
  | l@(_ :: r) => litEqAt lit l || hasLitEq lit r

/-- The test `/class\s*=/.test(attrs)`. -/
def hasClassEq (l : List Char) : Bool := hasLitEq "class".data l

/-- The test `/dir\s*=/.test(attrs)`. -/
def hasDirEq (l : List Char) : Bool := hasLitEq "dir".data l

/-- The theming class token. -/
def lexToken : List Char := "LexicalTheme__paragraph".data

/-- The test `/LexicalTheme__paragraph/.test(attrs)`. -/
def containsLex (l : List Char) : Bool := containsSub lexToken l

/-- Match `class\s*=\s*"([^"]*)"` at this exact position, returning the
captured content and the remainder after the closing quote. -/
def tryCQ (l : List Char) : Option (List Char × List Char) :=
  match dropLit "class".data l with
  | none => none
  | some r1 =>
    match r1.dropWhile Char.isWhitespace with
    | [] => none
    | e :: r3 =>
      if e = '=' then
        match r3.dropWhile Char.isWhitespace with
        | [] => none
        | f :: r5 =>
          if f = '"' then
            match r5.dropWhile (fun c => c ≠ '"') with
            | [] => none
            | g :: r6 =>
              if g = '"' then some (r5.takeWhile (fun c => c ≠ '"'), r6) else none
          else none
      else none

/-- Does `class\s*=\s*"([^"]*)"` match anywhere in the list? -/
def hasCQ : List Char → Bool
  | [] => false
  | l@(_ :: r) => (tryCQ l).isSome || hasCQ r

/-- The single replace `attrs.replace(/class\s*=\s*"([^"]*)"/, 'class="$1
LexicalTheme__paragraph"')`: rewrite the leftmost match, identity when
there is none. -/
def replaceCF : List Char → List Char
  | [] => []
  | c :: r =>
    match tryCQ (c :: r) with
    | some (content, rest) =>
      "class=\"".data ++ content ++ " LexicalTheme__paragraph\"".data ++ rest
    | none => c :: replaceCF r

/-- Text appended when no class attribute is present. -/
def classAppend : List Char := " class=\"LexicalTheme__paragraph\"".data

/-- Text appended when no dir attribute is present. -/
def dirAppend (dir : String) : List Char := " dir=\"".data ++ dir.data ++ "\"".data

/-- The class patch of the callback: append the theming class when no
class attribute is mentioned, insert it into the first double-quoted
class value when the token is absent. -/
def classStep (attrs : List Char) : List Char :=
  if hasClassEq attrs then (if containsLex attrs then attrs else replaceCF attrs)
  else attrs ++ classAppend

/-- The regex callback body: patch one captured attribute text (the
class patch, then the dir patch). -/
def transformAttrs (dir : String) (attrs : List Char) : List Char :=
  let n1 := classStep attrs
  if hasDirEq n1 then n1 else n1 ++ dirAppend dir

/-- After `<p`, decide whether the tag regex `(\s[^>]*)?\s*>` matches
here and return the captured attribute text (everything up to the first
`>`); the first character must be whitespace or the immediate `>`. -/
def pTagSplit : List Char → Option (List Char)
  | [] => none
  | c :: r =>
    if c = '>' then some []
    else if c.isWhitespace && (c :: r).contains '>' then
      some ((c :: r).takeWhile (fun d => d ≠ '>'))
    else none

/-- The global regex scan of `addLexicalClass`: find each `<p...>` tag,
rewrite its attributes, copy everything else. -/
def alcAux (dir : String) : List Char → List Char
  | [] => []
  | c :: rest =>
    if c = '<' ∧ rest.head? = some 'p' then
      match pTagSplit rest.tail with
      | some attrs =>
        c :: 'p' :: (transformAttrs dir attrs ++ '>' :: alcAux dir (rest.tail.drop (attrs.length + 1)))
      | none => c :: alcAux dir rest
    else c :: alcAux dir rest
termination_by l => l.length
decreasing_by
  all_goals simp [List.length_drop]
  omega

/-- Embedding of `addLexicalClass(html, dir)`. -/
def addLexicalClass (html : String) (dir : String) : String :=
  ⟨alcAux dir html.data⟩

/-! ## The per-type answer renderers -/

/-- JavaScript `String.prototype.trim()` at the character-list level. -/
def trimL (l : List Char) : List Char :=
  ((l.dropWhile Char.isWhitespace).reverse.dropWhile Char.isWhitespace).reverse

/-- JavaScript word character, for the word boundary in `/<\s*p\b/i`. -/
def wordChar (c : Char) : Bool := c.isAlphanum || c = '_'

/-- Word boundary right after the `p`. -/
def pBoundary : List Char → Bool
  | [] => true
  | d :: _ => !wordChar d

/-- Matcher for `\s*p\b` (case-insensitive `p`). -/
def pAfterWs : List Char → Bool
  | [] => false
  | c :: r =>
    if c.isWhitespace then pAfterWs r
    else (c = 'p' || c = 'P') && pBoundary r

/-- Matcher for `<\s*p\b` at this position. -/
def pTagAt : List Char → Bool
  | '<' :: r => pAfterWs r
  | _ => false

/-- The test `/<\s*p\b/i.test(s)`. -/
def containsPTag : List Char → Bool
  | [] => false
  | l@(_ :: r) => pTagAt l || containsPTag r

/-- JavaScript `array.join(sep)` for strings. -/
def joinSep (sep : String) : List String → String
  | [] => ""
  | [s] => s
  | s :: rest => s ++ sep ++ joinSep sep rest

/-- Embedding of `wrapChoiceValue(valueHtml, dir)`; the value can be an
arbitrary runtime value (the ordering renderer passes raw array
elements), coerced with `String(valueHtml ?? "")`. -/
def wrapChoiceValue (valueHtml : JVal) (dir : String) : String :=
  let rawValue : String := ⟨trimL (jsToString (nullish valueHtml (.str ""))).data⟩
  let valueWithLexicalClass : String := ⟨trimL (addLexicalClass rawValue dir).data⟩
  let normalizedValue :=
    if containsPTag valueWithLexicalClass.data then valueWithLexicalClass
    else "<p class=\"LexicalTheme__paragraph\" dir=\"" ++ dir ++ "\">" ++ valueWithLexicalClass ++ "</p>"
  "<div class=\"choice-value\" dir=\"" ++ dir ++ "\">" ++ normalizedValue ++ "</div>"

/-- Embedding of `renderChoiceItem`. -/
def renderChoiceItem (label labelClass : String) (valueHtml : JVal) (dir : String) : String :=
  "                <li class=\"\">\n                    <span class=\"" ++ labelClass
    ++ "\">\n                        " ++ label
    ++ "\n                    </span>\n                    " ++ wrapChoiceValue valueHtml dir
    ++ "\n                </li>"

/-- The fixed label-to-entity mapping table. -/
def LABEL_ENTITY_MAP : List (String × String) :=
  [("أ", "&#x623;"), ("ب", "&#x628;"), ("ج", "&#x62C;"), ("د", "&#x62F;"),
   ("هـ", "&#x647;"), ("ه", "&#x647;"), ("و", "&#x648;"),
   ("A", "A"), ("B", "B"), ("C", "C"), ("D", "D"), ("E", "E"), ("F", "F")]

/-- Embedding of `getLabelEntity`: table value if present (and truthy),
else the label itself. -/
def getLabelEntity (label : String) : String :=
  match LABEL_ENTITY_MAP.find? (fun p => p.1 == label) with
  | some p => if p.2 == "" then label else p.2
  | none => label

/-- One choice of a choice list. -/
structure Choice where
  label : String
  value : String
  is_correct : Option Bool := none

/-- One gap key of a gap-fill part. -/
structure GapKey where
  value : String
  display_order : Int
  correct_order : Int
deriving DecidableEq

/-- The two choice groups of a grouped multi-choice part. -/
structure GmrqItems where
  A : List Choice
  B : List Choice

/-- One question part as consumed by the renderers. -/
structure QuestionPart where
  n : Int
  type : String
  stem : String
  choices : Option (List Choice) := none
  correct_answer : JVal := .undefinedV
  acceptable_answers : Option (List String) := none
  gap_keys : Option (List GapKey) := none
  items : Option GmrqItems := none

/-- CSS class of one choice: correctness is a class toggle. -/
def choiceClass (c : Choice) : String :=
  if c.is_correct = some true then "not_active answered correct" else "not_active"

/-- Embedding of `renderStringAnswer`. -/
def renderStringAnswer (part : QuestionPart) (dir : String) : String :=
  let answer :=
    match part.acceptable_answers with
    | some (a :: _) => a
    | _ => ""
  "\n        <ul class=\"mcq_choices\">\n"
    ++ renderChoiceItem "&#x623;" "answered correct" (.str answer) dir
    ++ "\n        </ul>\n"

/-- Embedding of `renderMCQAnswer`: empty on a missing or empty choice
list, otherwise every choice as a list item with the class toggle. -/
def renderMCQAnswer (part : QuestionPart) (dir : String) : String :=
  match part.choices with
  | some (c :: cs) =>
    let items := joinSep "\n" ((c :: cs).map (fun choice =>
      renderChoiceItem (getLabelEntity choice.label) (choiceClass choice) (.str choice.value) dir))
    "\n    <ul class=\"mcq_choices\">\n" ++ items ++ "\n    </ul>\n"
  | _ => ""

/-- Embedding of `renderMRQAnswer`, which simply delegates to the MCQ
renderer. -/
def renderMRQAnswer (part : QuestionPart) (dir : String) : String :=
  renderMCQAnswer part dir

/-- Embedding of `renderFRQAnswer`. -/
def renderFRQAnswer (part : QuestionPart) (dir : String) : String :=
  match part.acceptable_answers with
  | some (a :: _) =>
    "\n        <div class=\"frq-answer\">\n                <div class=\"answered correct\">"
      ++ addLexicalClass a dir ++ "</div>\n        </div>\n"
  | _ => ""

/-- Embedding of `renderInputAnswer`: falsy `correct_answer` yields
empty output; otherwise value and optional unit are coerced. -/
def renderInputAnswer (part : QuestionPart) : String :=
  let ca := part.correct_answer
  if jsTruthy ca then
    let val :=
      match getField ca "value" with
      | .undefinedV => ""
      | v => jsToString v
    let unitJ := if jsTruthy (getField ca "unit") then getField ca "unit" else JVal.str ""
    "\n        <div class=\"input-answer\">\n                <span class=\"answered correct\">"
      ++ val ++ (if jsTruthy unitJ then " " ++ jsToString unitJ else "")
      ++ "</span>\n        </div>\n"
  else ""

/-- Ordering on gap keys used by the sort comparator
`(a, b) => a.correct_order - b.correct_order`. -/
def gapLe : GapKey → GapKey → Prop := fun a b => a.correct_order ≤ b.correct_order

instance : DecidableRel gapLe := fun _ _ => Int.decLe _ _

/-- The stable ascending sort of gap keys by `correct_order` (JavaScript
`sort` is stable). -/
def sortGapKeys (ks : List GapKey) : List GapKey := List.insertionSort gapLe ks

/-- The numbered list items of a gap-fill answer. -/
def gapItemsHTML (s : List GapKey) (dir : String) : String :=
  joinSep "\n" (s.enum.map (fun p =>
    renderChoiceItem (toString (p.1 + 1)) "answered correct" (.str p.2.value) dir))

/-- Embedding of `renderGapAnswer`. -/
def renderGapAnswer (part : QuestionPart) (dir : String) : String :=
  match part.gap_keys with
  | some (k :: ks) =>
    "\n        <ul class=\"mcq_choices\">\n" ++ gapItemsHTML (sortGapKeys (k :: ks)) dir
      ++ "\n        </ul>\n"
  | _ => ""

/-- Embedding of `renderOrderingAnswer`: requires an array value. -/
def renderOrderingAnswer (part : QuestionPart) (dir : String) : String :=
  match part.correct_answer with
  | .arr xs =>
    let items := joinSep "\n" (xs.enum.map (fun p =>
      renderChoiceItem (toString (p.1 + 1)) "answered correct" p.2 dir))
    "\n        <ol class=\"mcq_choices\">\n" ++ items ++ "\n        </ol>\n"
  | _ => ""

/-- Embedding of `renderMatchingAnswer`: requires an array value, rows
with a directional arrow between the paired cells. -/
def renderMatchingAnswer (part : QuestionPart) : String :=
  match part.correct_answer with
  | .arr pairs =>
    let rows := joinSep "\n" (pairs.map (fun pair =>
      "            <tr>\n                <td>" ++ jsToString (getField pair "A")
        ++ "</td>\n                <td>↔</td>\n                <td>" ++ jsToString (getField pair "B")
        ++ "</td>\n            </tr>"))
    "\n        <table class=\"matching-answer\">\n" ++ rows ++ "\n        </table>\n"
  | _ => ""

/-- One labeled group of a grouped multi-choice part. -/
def renderGMRQGroup (group : List Choice) (dir : String) : String :=
  joinSep "\n" (group.map (fun choice =>
    renderChoiceItem (getLabelEntity choice.label) (choiceClass choice) (.str choice.value) dir))

/-- Embedding of `renderGMRQAnswer`. -/
def renderGMRQAnswer (part : QuestionPart) (dir : String) : String :=
  match part.items with
  | some items =>
    "\n        <div class=\"gmrq-group\">\n            <strong>Group A:</strong>\n            <ul class=\"mcq_choices\">\n"
      ++ renderGMRQGroup items.A dir
      ++ "\n            </ul>\n            <strong>Group B:</strong>\n            <ul class=\"mcq_choices\">\n"
      ++ renderGMRQGroup items.B dir
      ++ "\n            </ul>\n        </div>\n"
  | none => ""

/-- Embedding of `renderCountingAnswer`: the scalar correct answer is
interpolated directly, whatever it is. -/
def renderCountingAnswer (part : QuestionPart) : String :=
  "\n        <div class=\"input-answer\">\n                <span class=\"answered correct\">"
    ++ jsToString part.correct_answer ++ "</span>\n        </div>\n"

/-- Embedding of `renderOpinionAnswer`: every choice gets the fixed
neutral class. -/
def renderOpinionAnswer (part : QuestionPart) (dir : String) : String :=
  match part.choices with
  | some (c :: cs) =>
    let items := joinSep "\n" ((c :: cs).map (fun choice =>
      renderChoiceItem (getLabelEntity choice.label) "not_active" (.str choice.value) dir))
    "\n    <ul class=\"mcq_choices\">\n" ++ items ++ "\n    </ul>\n"
  | _ => ""

/-- Embedding of `renderPuzzleAnswer`. -/
def renderPuzzleAnswer (part : QuestionPart) : String :=
  let ca := part.correct_answer
  if jsTruthy ca then
    let altV := getField ca "alt"
    "\n        <div class=\"puzzle-answer\">\n            <img src=\"" ++ jsToString (getField ca "src")
      ++ "\" alt=\"" ++ (if jsTruthy altV then jsToString altV else "Puzzle answer")
      ++ "\" style=\"max-width: 300px;\" />\n        </div>\n"
  else ""

/-- The visible placeholder fragment for an unrecognized type tag. -/
def unsupportedFragment (t : String) : String :=
  "<p style=\"color:#999;\">Unsupported type: " ++ t ++ "</p>"

/-- Embedding of `renderAnswers`, the dispatcher on `part.type`. -/
def renderAnswers (part : QuestionPart) (dir : String) : String :=
  if part.type = "string" then renderStringAnswer part dir
  else if part.type = "mcq" then renderMCQAnswer part dir
  else if part.type = "mrq" then renderMRQAnswer part dir
  else if part.type = "frq" then renderFRQAnswer part dir
  else if part.type = "input" then renderInputAnswer part
  else if part.type = "gap" then renderGapAnswer part dir
  else if part.type = "ordering" then renderOrderingAnswer part dir
  else if part.type = "matching" then renderMatchingAnswer part
  else if part.type = "gmrq" then renderGMRQAnswer part dir
  else if part.type = "counting" then renderCountingAnswer part
  else if part.type = "opinion" then renderOpinionAnswer part dir
  else if part.type = "puzzle" then renderPuzzleAnswer part
  else unsupportedFragment part.type

/-! ## rewriteImagePaths

The source rewrites, per match of the global case-insensitive regex
`(<img[^>]*\ssrc\s*=\s*")([^"]*\.(?:svg|png|jpg|jpeg|gif|webp))(")`,
the captured `src` unless it is an absolute http(s) URL or already
starts with `images/`. The embedding reproduces the scan including the
greedy backtracking of `[^>]*` (the rightmost viable `\ssrc` inside the
tag is taken). -/

/-- Case-insensitive character comparison for the `i` regex flag. -/
def ciEq (c d : Char) : Bool := c.toLower = d.toLower

/-- Consume a literal case-insensitively, returning the remainder. -/
def dropLitCI : List Char → List Char → Option (List Char)
  | [], l => some l
  | _ :: _, [] => none
  | c :: cs, d :: ds => if ciEq d c then dropLitCI cs ds else none

/-- The recognized image extensions. -/
def imageExts : List String := ["svg", "png", "jpg", "jpeg", "gif", "webp"]

/-- Suffix test at the character-list level. -/
def endsWithL (pat l : List Char) : Bool := startsWithL pat.reverse l.reverse

/-- Does the captured src end with `.` plus a recognized extension,
case-insensitively? -/
def endsWithExt (content : List Char) : Bool :=
  imageExts.any (fun e => endsWithL ('.' :: e.data) (content.map Char.toLower))

/-- Match `\ssrc\s*=\s*"([^"]*\.ext)"` at exactly this position;
returns the length of the text up to and including the opening quote,
plus the captured src. -/
def srcAt (l : List Char) : Option (Nat × List Char) :=
  match l with
  | [] => none
  | c :: r =>
    if c.isWhitespace then
      match dropLitCI "src".data r with
      | none => none
      | some r1 =>
        match r1.dropWhile Char.isWhitespace with
        | [] => none
        | e :: r3 =>
          if e = '=' then
            match r3.dropWhile Char.isWhitespace with
            | [] => none
            | f :: r5 =>
              if f = '"' then
                match r5.dropWhile (fun d => d ≠ '"') with
                | [] => none
                | g :: _ =>
                  if g = '"' then
                    if endsWithExt (r5.takeWhile (fun d => d ≠ '"')) then
                      some (l.length - r5.length, r5.takeWhile (fun d => d ≠ '"'))
                    else none
                  else none
              else none
          else none
    else none

/-- Greedy search inside `[^>]*`: prefer the rightmost position where
the src attribute pattern completes, never crossing a `>`. -/
def findSrcGreedy : List Char → Option (Nat × List Char)
  | [] => none
  | c :: r =>
    if c = '>' then none
    else
      match findSrcGreedy r with
      | some (k, content) => some (k + 1, content)
      | none => srcAt (c :: r)

/-- Try the whole img regex at this position: `<img` (case-insensitive)
then the greedy attribute search. Returns the length of group 1 (up to
and including the opening quote) and the captured src. -/
def imgMatchAt (l : List Char) : Option (Nat × List Char) :=
  match dropLitCI "<img".data l with
  | some r0 =>
    match findSrcGreedy r0 with
    | some (k, content) => some (4 + k, content)
    | none => none
  | none => none

/-- The callback skip test: absolute http(s) URL or already under the
canonical `images/` prefix (both case-sensitive). -/
def skipSrc (src : List Char) : Bool :=
  startsWithL "http://".data src || startsWithL "https://".data src
    || startsWithL "images/".data src

/-- The global replace loop of `rewriteImagePaths`. -/
def rwAux (qid : String) : List Char → List Char
  | [] => []
  | c :: rest =>
    match imgMatchAt (c :: rest) with
    | some (p, content) =>
      (c :: rest).take p
        ++ (if skipSrc content then content else "images/".data ++ qid.data ++ '/' :: content)
        ++ '"' :: rwAux qid (rest.drop (p + content.length))
    | none => c :: rwAux qid rest
termination_by l => l.length
decreasing_by
  all_goals simp [List.length_drop]
  omega

/-- Embedding of `rewriteImagePaths(html, questionId)`. -/
def rewriteImagePaths (html : String) (questionId : String) : String :=
  ⟨rwAux questionId html.data⟩

/-- A simple img tag, the documented tag shape the rewriter targets. -/
def mkImg (src : String) : String := "<img src=\"" ++ src ++ "\">"

/-- Specification-side description of what happens to one src value:
pass through absolute http(s) URLs and canonical `images/` paths,
rewrite recognized image extensions under the question id, leave
everything else alone. -/
def rewriteSrc (qid src : String) : String :=
  if skipSrc src.data then src
  else if endsWithExt src.data then "images/" ++ qid ++ "/" ++ src
  else src

/-- Characters allowed in a well-behaved src value: no quote, no angle
brackets (also case-folded), no whitespace. -/
def goodSrcChar (c : Char) : Bool :=
  !(c = '"') && !(c = '>') && !(c.toLower = '<') && !c.isWhitespace

/-- A well-behaved src value. -/
def goodSrc (s : String) : Bool := s.data.all goodSrcChar

/-! ## mapWithConcurrency

The worker pool is modelled as a small-step transition system under the
single-threaded cooperative scheduling of the JavaScript runtime: the
only suspension point is the awaited `mapper` call, so a step is either
the atomic claim of the shared cursor (`currentIndex = nextIndex;
nextIndex += 1`) by a ready worker, or the completion of an awaited
call, which writes the result at the claimed index. A scheduler picks
any enabled step; the theorem quantifies over all schedules. -/

/-- Status of one worker: between claims, or awaiting the mapper call
for a claimed index. -/
inductive WStatus where
  | ready : WStatus
  | busy : Nat → WStatus
deriving DecidableEq

/-- The shared state of `mapWithConcurrency`: the cursor, the result
array (unwritten slots are `none`), and the workers. -/
structure PoolState (R : Type) where
  nextIndex : Nat
  results : List (Option R)
  workers : List WStatus

/-- The spawned worker count `Math.max(1, Math.min(limit, items.length))`. -/
def workerCount (limit n : Nat) : Nat := max 1 (min limit n)

/-- The state before any worker runs. -/
def initState (R : Type) (n wc : Nat) : PoolState R :=
  ⟨0, List.replicate n none, List.replicate wc .ready⟩

/-- One scheduler step of the pool. -/
inductive PoolStep {T R : Type} (items : List T) (op : T → Nat → R) :
    PoolState R → PoolState R → Prop where
  | claim (s : PoolState R) (w : Nat)
      (hw : s.workers[w]? = some .ready) (hn : s.nextIndex < items.length) :
      PoolStep items op s
        ⟨s.nextIndex + 1, s.results, s.workers.set w (.busy s.nextIndex)⟩
  | finish (s : PoolState R) (w i : Nat) (x : T)
      (hw : s.workers[w]? = some (.busy i)) (hx : items[i]? = some x) :
      PoolStep items op s
        ⟨s.nextIndex, s.results.set i (some (op x i)), s.workers.set w .ready⟩

/-- All states reachable from the initial state under some schedule. -/
def PoolReach {T R : Type} (items : List T) (limit : Nat) (op : T → Nat → R)
    (s : PoolState R) : Prop :=
  Relation.ReflTransGen (PoolStep items op)
    (initState R items.length (workerCount limit items.length)) s

/-- A terminal state: the cursor is exhausted and every worker has left
its loop. -/
def PoolTerminal {R : Type} (n : Nat) (s : PoolState R) : Prop :=
  n ≤ s.nextIndex ∧ ∀ w ∈ s.workers, w = WStatus.ready

/-- The pool invariant: results have the right length, the cursor never
passes the end, every busy index was claimed, and every claimed index
is either already correctly written or owned by a busy worker. -/
def PoolInv {T R : Type} (items : List T) (op : T → Nat → R) (s : PoolState R) : Prop :=
  s.results.length = items.length ∧
  s.nextIndex ≤ items.length ∧
  (∀ (w i : Nat), s.workers[w]? = some (WStatus.busy i) → i < s.nextIndex) ∧
  (∀ i : Nat, i < s.nextIndex →
    (∃ x, items[i]? = some x ∧ s.results[i]? = some (some (op x i))) ∨
    (∃ w : Nat, s.workers[w]? = some (WStatus.busy i)))

/-! ## The partition step of generateExportHTML

Phase 1 produces, in input order (the order guarantee of
`mapWithConcurrency`), one record `(id, question)` per requested id,
where `question` is `none` exactly when that fetch attempt failed (the
closure catches both non-ok statuses and thrown errors). The loop below
is the partition into `questions` and `failedIds`. -/

/-- A fetched question record (the fields the claims touch). -/
structure QuestionJSON where
  question_id : String
  language_code : String
  number_of_parts : Int
  parts : List QuestionPart

/-- The partition loop over the phase-1 results. -/
def collectResults : List (String × Option QuestionJSON) → List QuestionJSON × List String
  | [] => ([], [])
  | (_, some q) :: rest =>
    let p := collectResults rest
    (q :: p.1, p.2)
  | (id, none) :: rest =>
    let p := collectResults rest
    (p.1, id :: p.2)

/-- The summary fields of the returned `ExportResult`. -/
structure ExportCounts where
  successCount : Nat
  failedIds : List String

/-- The counts `generateExportHTML` returns: `successCount =
questions.length` and the collected failed ids. -/
def exportSummary (rs : List (String × Option QuestionJSON)) : ExportCounts :=
  ⟨(collectResults rs).1.length, (collectResults rs).2⟩

/-- The ids whose fetch attempt succeeded. -/
def succIds (rs : List (String × Option QuestionJSON)) : List String :=
  (rs.filter (fun r => r.2.isSome)).map (fun r => r.1)

/-! ## Goodness condition for idempotence of addLexicalClass -/

/-- Attribute texts on which a second normalization pass is a no-op:
either there is no class attribute mention (so the first pass appends
the theming class), or the theming token is already present, or the
quoted-class pattern matches inside the text (so the first pass inserts
the token there), or a dir attribute mention is present (so nothing is
appended), or appending the dir attribute does not create a quoted
class pattern. The counterexample violates exactly the last case: an
unterminated quote that the appended dir attribute closes. -/
def goodAttrsB (dir : String) (attrs : List Char) : Bool :=
  !hasClassEq attrs || containsLex attrs || hasCQ attrs || hasDirEq attrs
    || !hasCQ (attrs ++ dirAppend dir)

/-- The html strings whose paragraph tags all have good attribute
texts, following the same scan as `alcAux`. -/
def goodHtmlB (dir : String) : List Char → Bool
  | [] => true
  | c :: rest =>
    if c = '<' ∧ rest.head? = some 'p' then
      match pTagSplit rest.tail with
      | some attrs => goodAttrsB dir attrs && goodHtmlB dir (rest.tail.drop (attrs.length + 1))
      | none => goodHtmlB dir rest
    else goodHtmlB dir rest
termination_by l => l.length
decreasing_by
  all_goals simp [List.length_drop]
  omega

end HtmlExport
namespace HtmlExport

/-- Concatenation of a list of strings, for stating the tag-list
behavior of the rewriter. -/
def joinAll : List String → String
  | [] => ""
  | s :: rest => s ++ joinAll rest

/-! ## Concrete inputs used by the witnesses, and order instances -/

def qW : QuestionJSON := ⟨"a", "en", 1, []⟩

def rsW : List (String × Option QuestionJSON) := [("a", some qW), ("b", none)]

/-- A path which fails the canonical shape check of `resolveImageUrl`:
fewer than three segments, wrong first segment, or empty id or
filename, computed on the slash-normalized path. -/
def nonconformingPath (imgPath : String) : Bool :=
  let parts := splitSlash (imgPath.data.dropWhile (fun c => c = '/'))
  decide (parts.length < 3) || decide (parts.head? ≠ some "images".data) ||
    decide (parts.getD 1 [] = []) || decide (joinSlash (parts.drop 2) = [])

def stripFlags : Option (List Choice) → Option (List (String × String)) :=
  Option.map (List.map (fun c => (c.label, c.value)))

def opinionFlagged : QuestionPart :=
  { n := 1, type := "opinion", stem := "",
    choices := some [{ label := "A", value := "x", is_correct := some true },
                     { label := "B", value := "y" }] }

def opinionPlain : QuestionPart :=
  { n := 1, type := "opinion", stem := "",
    choices := some [{ label := "A", value := "x" },
                     { label := "B", value := "y" }] }

/-- The counting part with an absent correct answer. -/
def countingPartNoAnswer : QuestionPart := { n := 1, type := "counting", stem := "" }

def inputPartNoAnswer : QuestionPart := { n := 1, type := "input", stem := "" }

def mysteryPart : QuestionPart := { n := 1, type := "mystery", stem := "" }

instance : IsTotal GapKey gapLe := ⟨fun a b => Int.le_total a.correct_order b.correct_order⟩

instance : IsTrans GapKey gapLe := ⟨fun _ _ _ hab hbc => le_trans hab hbc⟩

instance : IsRefl GapKey gapLe := ⟨fun a => le_refl a.correct_order⟩

def gkA : GapKey := { value := "vA", display_order := 2, correct_order := 1 }

def gkB : GapKey := { value := "vB", display_order := 1, correct_order := 2 }

def gkC : GapKey := { value := "vC", display_order := 3, correct_order := 3 }

def gapPartW : QuestionPart :=
  { n := 1, type := "gap", stem := "", gap_keys := some [gkB, gkA, gkC] }

def itemsW : List Nat := [10, 20]

def opW : Nat → Nat → Nat := fun x i => x + i

def psW0 : PoolState Nat := initState Nat 2 (workerCount 1 2)

def psW1 : PoolState Nat := ⟨1, [none, none], [WStatus.busy 0]⟩

def psW2 : PoolState Nat := ⟨1, [some 10, none], [WStatus.ready]⟩

def psW3 : PoolState Nat := ⟨2, [some 10, none], [WStatus.busy 1]⟩

def psW4 : PoolState Nat := ⟨2, [some 10, some 21], [WStatus.ready]⟩

/-! # Theorems -/

theorem collectResults_fst (rs : List (String × Option QuestionJSON)) :
    (collectResults rs).1 = rs.filterMap (fun r => r.2) := by
  induction rs with
  | nil => rfl
  | cons a rest ih =>
    rcases a with ⟨id, q⟩
    cases q <;> simp [collectResults, ih]

theorem collectResults_snd (rs : List (String × Option QuestionJSON)) :
    (collectResults rs).2 = (rs.filter (fun r => r.2.isNone)).map (fun r => r.1) := by
  induction rs with
  | nil => rfl
  | cons a rest ih =>
    rcases a with ⟨id, q⟩
    cases q <;> simp [collectResults, ih]

theorem length_filterMap_snd (rs : List (String × Option QuestionJSON)) :
    (rs.filterMap (fun r => r.2)).length = (rs.filter (fun r => r.2.isSome)).length := by
  induction rs with
  | nil => rfl
  | cons a rest ih =>
    rcases a with ⟨id, q⟩
    cases q <;> simp [ih]

theorem mem_succIds (rs : List (String × Option QuestionJSON)) (id : String) :
    id ∈ succIds rs ↔ ∃ q, (id, some q) ∈ rs := by
  simp only [succIds, List.mem_map, List.mem_filter]
  constructor
  · rintro ⟨⟨i, o⟩, ⟨hmem, hsome⟩, rfl⟩
    rcases o with _ | q
    · simp at hsome
    · exact ⟨q, hmem⟩
  · rintro ⟨q, hmem⟩
    exact ⟨(id, some q), ⟨hmem, rfl⟩, rfl⟩

theorem mem_failedIds (rs : List (String × Option QuestionJSON)) (id : String) :
    id ∈ (collectResults rs).2 ↔ (id, none) ∈ rs := by
  rw [collectResults_snd]
  simp only [List.mem_map, List.mem_filter]
  constructor
  · rintro ⟨⟨i, o⟩, ⟨hmem, hnone⟩, rfl⟩
    rcases o with _ | q
    · exact hmem
    · simp at hnone
  · intro hmem
    exact ⟨(id, none), ⟨hmem, rfl⟩, rfl⟩

end HtmlExport
namespace HtmlExport

/-- Claim C2: for every input id list (deduplicated upstream, as the
claim allows), the export partitions the fetch outcomes: failed ids and
successfully fetched ids are disjoint, together they cover the input id
set, and the returned successCount equals the number of successfully
fetched questions. -/
theorem generateExport_partition (rs : List (String × Option QuestionJSON))
    (hnd : (rs.map (fun r => r.1)).Nodup) :
    (∀ id ∈ (exportSummary rs).failedIds, id ∉ succIds rs) ∧
    (∀ id, id ∈ rs.map (fun r => r.1) ↔ (id ∈ (exportSummary rs).failedIds ∨ id ∈ succIds rs)) ∧
    (exportSummary rs).successCount = (succIds rs).length := by
  have hinj : ∀ x ∈ rs, ∀ y ∈ rs, x.1 = y.1 → x = y := by
    have hrs : rs.Nodup := hnd.of_map
    exact fun x hx y hy hxy => (List.nodup_map_iff_inj_on hrs).1 hnd x hx y hy hxy
  refine ⟨?_, ?_, ?_⟩
  · intro id hf hs
    have h1 : (id, (none : Option QuestionJSON)) ∈ rs := (mem_failedIds rs id).1 hf
    rcases (mem_succIds rs id).1 hs with ⟨q, h2⟩
    have := hinj _ h1 _ h2 rfl
    simp at this
  · intro id
    constructor
    · intro h
      rcases List.mem_map.1 h with ⟨⟨i, o⟩, hmem, rfl⟩
      rcases o with _ | q
      · exact Or.inl ((mem_failedIds rs i).2 hmem)
      · exact Or.inr ((mem_succIds rs i).2 ⟨q, hmem⟩)
    · rintro (h | h)
      · exact List.mem_map.2 ⟨(id, none), (mem_failedIds rs id).1 h, rfl⟩
      · rcases (mem_succIds rs id).1 h with ⟨q, hmem⟩
        exact List.mem_map.2 ⟨(id, some q), hmem, rfl⟩
  · show (collectResults rs).1.length = _
    rw [collectResults_fst, length_filterMap_snd]
    simp [succIds]

theorem generateExport_partition_witness :
    ("b" ∈ (exportSummary rsW).failedIds → "b" ∉ succIds rsW) ∧
    ("a" ∈ rsW.map (fun r => r.1) ↔ ("a" ∈ (exportSummary rsW).failedIds ∨ "a" ∈ succIds rsW)) ∧
    (exportSummary rsW).successCount = (succIds rsW).length :=
  ⟨fun h => (generateExport_partition rsW (by decide)).1 "b" h,
   (generateExport_partition rsW (by decide)).2.1 "a",
   (generateExport_partition rsW (by decide)).2.2⟩

end HtmlExport
namespace HtmlExport

/-- Claim C6: resolveRemoteUrl returns null, never raising, on every
path that does not conform to the canonical images/id/filename shape
(fewer than three segments, wrong first segment, empty id or filename),
and a conforming path such as images/Q1/foo.svg resolves to a URL
containing both Q1 and foo.svg. -/
theorem resolveImageUrl_nonconforming_null (imgPath : String)
    (h : nonconformingPath imgPath = true) :
    resolveImageUrl imgPath = none ∧
    resolveImageUrl "images/Q1/foo.svg" = some "/api/questions/Q1/foo.svg" ∧
    containsSub "Q1".data "/api/questions/Q1/foo.svg".data = true ∧
    containsSub "foo.svg".data "/api/questions/Q1/foo.svg".data = true ∧
    resolveImageUrl "not/a/valid/path" = none := by
  refine ⟨?_, by decide, by decide, by decide, by decide⟩
  unfold nonconformingPath at h
  unfold resolveImageUrl
  set parts := splitSlash (imgPath.data.dropWhile (fun c => c = '/')) with hp
  simp only [Bool.or_eq_true, decide_eq_true_eq] at h
  by_cases h1 : parts.length < 3 ∨ parts.head? ≠ some "images".data
  · simp only [h1, if_true]
  · have h2 : parts.getD 1 [] = [] ∨ joinSlash (parts.drop 2) = [] := by tauto
    simp only [h1, if_false, h2, if_true]

theorem resolveImageUrl_nonconforming_null_witness :
    nonconformingPath "not/a/valid/path" = true ∧ resolveImageUrl "not/a/valid/path" = none :=
  ⟨by decide, (resolveImageUrl_nonconforming_null "not/a/valid/path" (by decide)).1⟩

/-- Claim C10: resolveImageUrl strips leading slashes before parsing,
so /images/Q1/foo.svg resolves like images/Q1/foo.svg; and a filename
holding further slash segments is preserved whole, so images/Q1/a/b.svg
resolves with filename a/b.svg rather than returning null. -/
theorem resolveImageUrl_normalizes (p : String) :
    resolveImageUrl ("/" ++ p) = resolveImageUrl p ∧
    resolveImageUrl "/images/Q1/foo.svg" = resolveImageUrl "images/Q1/foo.svg" ∧
    resolveImageUrl "images/Q1/a/b.svg" = some (S3_BASE ++ "/" ++ "Q1" ++ "/" ++ "a/b.svg") := by
  refine ⟨?_, by decide, by decide⟩
  unfold resolveImageUrl
  have hd : ("/" ++ p).data = '/' :: p.data := by simp
  rw [hd]
  simp [List.dropWhile]

end HtmlExport
namespace HtmlExport

/-- Claim C9: rendering a part of type mrq produces exactly the same
fragment as rendering the identical part with type mcq; the
multi-choice renderer is definitionally the single-choice renderer. -/
theorem mrq_renders_as_mcq (p : QuestionPart) (dir : String) :
    renderMRQAnswer p dir = renderMCQAnswer p dir ∧
    renderAnswers { p with type := "mrq" } dir = renderAnswers { p with type := "mcq" } dir := by
  refine ⟨rfl, ?_⟩
  simp [renderAnswers, renderMRQAnswer, renderMCQAnswer]

theorem opinion_items_congr (dir : String) :
    ∀ ps qs : List Choice,
      ps.map (fun c => (c.label, c.value)) = qs.map (fun c => (c.label, c.value)) →
      ps.map (fun c => renderChoiceItem (getLabelEntity c.label) "not_active" (.str c.value) dir)
        = qs.map (fun c => renderChoiceItem (getLabelEntity c.label) "not_active" (.str c.value) dir) := by
  intro ps
  induction ps with
  | nil =>
    intro qs h
    cases qs with
    | nil => rfl
    | cons b bs => simp at h
  | cons a as ih =>
    intro qs h
    cases qs with
    | nil => simp at h
    | cons b bs =>
      simp only [List.map_cons, List.cons.injEq, Prod.mk.injEq] at h
      obtain ⟨⟨hl, hv⟩, ht⟩ := h
      simp only [List.map_cons, List.cons.injEq]
      exact ⟨by rw [hl, hv], ih bs ht⟩

theorem renderAnswers_opinion (p : QuestionPart) (dir : String) (hp : p.type = "opinion") :
    renderAnswers p dir = renderOpinionAnswer p dir := by
  simp [renderAnswers, hp]

theorem renderOpinionAnswer_congr (p q : QuestionPart) (dir : String)
    (h : stripFlags p.choices = stripFlags q.choices) :
    renderOpinionAnswer p dir = renderOpinionAnswer q dir := by
  unfold stripFlags at h
  rcases hpc : p.choices with _ | ps <;> rcases hqc : q.choices with _ | qs <;>
      rw [hpc, hqc] at h <;> simp at h
  · simp [renderOpinionAnswer, hpc, hqc]
  · have hmap := opinion_items_congr dir ps qs h
    have hlen : ps.length = qs.length := by
      have := congrArg List.length h
      simpa using this
    unfold renderOpinionAnswer
    rw [hpc, hqc]
    cases ps with
    | nil =>
      cases qs with
      | nil => rfl
      | cons b bs => simp at hlen
    | cons a as =>
      cases qs with
      | nil => simp at hlen
      | cons b bs =>
        simp only [List.map_cons] at hmap
        simp [hmap]

/-- Claim C8: the rendered output of an opinion part is independent of
the is_correct flags of its choices, and every choice is rendered with
the same fixed neutral class, so no correctness styling leaks. -/
theorem renderOpinion_independent_of_flags (p q : QuestionPart) (dir : String)
    (hp : p.type = "opinion") (hq : q.type = "opinion")
    (h : stripFlags p.choices = stripFlags q.choices) :
    renderAnswers p dir = renderAnswers q dir ∧
    (∀ cs, p.choices = some cs → cs ≠ [] →
      renderAnswers p dir = "\n    <ul class=\"mcq_choices\">\n"
        ++ joinSep "\n" (cs.map (fun c =>
              renderChoiceItem (getLabelEntity c.label) "not_active" (.str c.value) dir))
        ++ "\n    </ul>\n") := by
  constructor
  · rw [renderAnswers_opinion p dir hp, renderAnswers_opinion q dir hq]
    exact renderOpinionAnswer_congr p q dir h
  · intro cs hcs hne
    rw [renderAnswers_opinion p dir hp]
    unfold renderOpinionAnswer
    rw [hcs]
    cases cs with
    | nil => exact absurd rfl hne
    | cons a as => rfl

end HtmlExport
namespace HtmlExport

theorem renderOpinion_independent_of_flags_witness :
    renderAnswers opinionFlagged "ltr" = renderAnswers opinionPlain "ltr" :=
  (renderOpinion_independent_of_flags opinionFlagged opinionPlain "ltr" rfl rfl rfl).1

/-- Claim C3, counterexample: a counting part with an absent correct
answer renders a fragment that is neither empty nor the visible
Unsupported-type placeholder; it contains the coercion text undefined,
refuting the claim that every branch degrades to empty or placeholder
output on missing fields. -/
theorem renderAnswers_counting_breaks_degradation :
    renderAnswers countingPartNoAnswer "ltr" ≠ "" ∧
    containsSub "Unsupported type".data (renderAnswers countingPartNoAnswer "ltr").data = false ∧
    containsSub "undefined".data (renderAnswers countingPartNoAnswer "ltr").data = true := by
  refine ⟨?_, ?_, ?_⟩ <;>
    simp [renderAnswers, countingPartNoAnswer, renderCountingAnswer, jsToString,
          containsSub, startsWithL]

/-- Claim C3, amended: the renderer is total; an input part with a
falsy correct_answer yields empty output, an unrecognized type yields
the visible Unsupported-type placeholder, but a counting part with an
absent correct answer renders the text undefined inside the answer
markup. -/
theorem renderAnswers_degradation_amended (p : QuestionPart) (dir : String) :
    (p.type = "input" → jsTruthy p.correct_answer = false → renderAnswers p dir = "") ∧
    (p.type ∉ ["string", "mcq", "mrq", "frq", "input", "gap", "ordering", "matching",
        "gmrq", "counting", "opinion", "puzzle"] →
      renderAnswers p dir = unsupportedFragment p.type) ∧
    (p.type = "counting" → p.correct_answer = JVal.undefinedV →
      renderAnswers p dir =
        "\n        <div class=\"input-answer\">\n                <span class=\"answered correct\">undefined</span>\n        </div>\n") := by
  refine ⟨?_, ?_, ?_⟩
  · intro ht hf
    simp [renderAnswers, ht, renderInputAnswer, hf]
  · intro ht
    simp only [List.mem_cons, List.not_mem_nil, or_false, not_or] at ht
    obtain ⟨h1, h2, h3, h4, h5, h6, h7, h8, h9, h10, h11, h12⟩ := ht
    simp [renderAnswers, h1, h2, h3, h4, h5, h6, h7, h8, h9, h10, h11, h12]
  · intro ht hca
    simp [renderAnswers, ht, renderCountingAnswer, hca, jsToString]

theorem renderAnswers_degradation_amended_witness :
    renderAnswers inputPartNoAnswer "ltr" = "" ∧
    renderAnswers mysteryPart "ltr" = unsupportedFragment "mystery" ∧
    renderAnswers countingPartNoAnswer "ltr" =
      "\n        <div class=\"input-answer\">\n                <span class=\"answered correct\">undefined</span>\n        </div>\n" :=
  ⟨(renderAnswers_degradation_amended inputPartNoAnswer "ltr").1 rfl rfl,
   (renderAnswers_degradation_amended mysteryPart "ltr").2.1 (by decide),
   (renderAnswers_degradation_amended countingPartNoAnswer "ltr").2.2 rfl rfl⟩

end HtmlExport
namespace HtmlExport

/-- Claim C7: a gap-fill part with nonempty gap keys renders the gap
values as a 1-based ordered list sorted ascending by correct_order,
ignoring display_order: the sorted list is a permutation of the keys,
is sorted by correct_order, and its first element has the minimal
correct_order. -/
theorem renderGap_sorted_by_correct_order (part : QuestionPart) (dir : String)
    (ks : List GapKey) (hty : part.type = "gap") (hks : part.gap_keys = some ks)
    (hne : ks ≠ []) :
    renderAnswers part dir =
      "\n        <ul class=\"mcq_choices\">\n" ++ gapItemsHTML (sortGapKeys ks) dir
        ++ "\n        </ul>\n" ∧
    List.Sorted gapLe (sortGapKeys ks) ∧
    (sortGapKeys ks).Perm ks ∧
    (∀ hd, (sortGapKeys ks).head? = some hd →
      ∀ k ∈ ks, hd.correct_order ≤ k.correct_order) := by
  refine ⟨?_, List.sorted_insertionSort gapLe ks, List.perm_insertionSort gapLe ks, ?_⟩
  · have e : renderAnswers part dir = renderGapAnswer part dir := by
      simp [renderAnswers, hty]
    rw [e]
    unfold renderGapAnswer
    rw [hks]
    cases ks with
    | nil => exact absurd rfl hne
    | cons k ks' => rfl
  · intro hd hhd k hk
    have hmem : k ∈ sortGapKeys ks := (List.perm_insertionSort gapLe ks).mem_iff.2 hk
    have hs := List.sorted_insertionSort gapLe ks
    have hs2 : List.Sorted gapLe (sortGapKeys ks) := hs
    rcases hsk : sortGapKeys ks with _ | ⟨a, t⟩
    · rw [hsk] at hhd
      simp at hhd
    · rw [hsk] at hhd hmem hs2
      simp only [List.head?_cons, Option.some.injEq] at hhd
      subst hhd
      rcases List.mem_cons.1 hmem with rfl | hmt
      · exact le_refl _
      · exact List.rel_of_sorted_cons hs2 k hmt

theorem renderGap_sorted_by_correct_order_witness :
    renderAnswers gapPartW "ltr" =
      "\n        <ul class=\"mcq_choices\">\n" ++ gapItemsHTML [gkA, gkB, gkC] "ltr"
        ++ "\n        </ul>\n" ∧
    (sortGapKeys [gkB, gkA, gkC]).head? = some gkA ∧
    gkA.correct_order = 1 ∧ gkA.display_order = 2 ∧
    gkA.correct_order ≤ gkB.correct_order := by
  have h := renderGap_sorted_by_correct_order gapPartW "ltr" [gkB, gkA, gkC] rfl rfl (by decide)
  have hsort : sortGapKeys [gkB, gkA, gkC] = [gkA, gkB, gkC] := by
    simp [sortGapKeys, List.insertionSort, List.orderedInsert, gapLe, gkA, gkB, gkC]
  refine ⟨?_, by rw [hsort]; rfl, rfl, rfl, ?_⟩
  · rw [h.1, hsort]
  · exact h.2.2.2 gkA (by rw [hsort]; rfl) gkB (by decide)

end HtmlExport
namespace HtmlExport

theorem poolInv_init {T R : Type} (items : List T) (op : T → Nat → R) (wc : Nat) :
    PoolInv items op (initState R items.length wc) := by
  refine ⟨by simp [initState], by simp [initState], ?_, ?_⟩
  · intro w i hw
    simp only [initState] at hw
    rcases Nat.lt_or_ge w wc with hlt | hge
    · rw [List.getElem?_replicate_of_lt hlt] at hw
      simp at hw
    · rw [List.getElem?_eq_none (by simpa using hge)] at hw
      simp at hw
  · intro i hi
    simp [initState] at hi

theorem poolInv_step {T R : Type} (items : List T) (op : T → Nat → R)
    (s s' : PoolState R) (hinv : PoolInv items op s) (hstep : PoolStep items op s s') :
    PoolInv items op s' := by
  obtain ⟨hlen, hnle, hbusy, hcell⟩ := hinv
  cases hstep with
  | claim w hw hn =>
    have hwlt : w < s.workers.length := by
      rcases List.getElem?_eq_some.1 hw with ⟨h, _⟩
      exact h
    refine ⟨hlen, hn, ?_, ?_⟩
    · intro w' i hw'
      by_cases hww : w' = w
      · subst hww
        rw [List.getElem?_set_self (by simpa using hwlt)] at hw'
        have : WStatus.busy s.nextIndex = WStatus.busy i := by
          simpa using hw'
        cases this
        dsimp only
        omega
      · rw [List.getElem?_set_ne (fun h => hww h.symm)] at hw'
        have := hbusy w' i hw'
        dsimp only
        omega
    · intro i hi
      dsimp only at hi
      rcases Nat.lt_or_ge i s.nextIndex with hlt | hge
      · rcases hcell i hlt with hwritten | ⟨w'', hb⟩
        · exact Or.inl hwritten
        · refine Or.inr ⟨w'', ?_⟩
          have hne : w'' ≠ w := by
            intro h
            subst h
            rw [hw] at hb
            simp at hb
          rw [List.getElem?_set_ne (fun h => hne h.symm)]
          exact hb
      · have : i = s.nextIndex := by omega
        subst this
        refine Or.inr ⟨w, ?_⟩
        rw [List.getElem?_set_self (by simpa using hwlt)]
  | finish w i x hw hx =>
    have hilt : i < s.nextIndex := hbusy w i hw
    have hires : i < s.results.length := by
      rw [hlen]
      omega
    refine ⟨by simpa using hlen, hnle, ?_, ?_⟩
    · intro w' i' hw'
      by_cases hww : w' = w
      · subst hww
        rcases List.getElem?_eq_some.1 hw with ⟨hwl, _⟩
        rw [List.getElem?_set_self (by simpa using hwl)] at hw'
        simp at hw'
      · rw [List.getElem?_set_ne (fun h => hww h.symm)] at hw'
        exact hbusy w' i' hw'
    · intro j hj
      by_cases hji : j = i
      · subst hji
        refine Or.inl ⟨x, hx, ?_⟩
        rw [List.getElem?_set_self (by simpa using hires)]
      · rcases hcell j hj with ⟨y, hy, hres⟩ | ⟨w'', hb⟩
        · refine Or.inl ⟨y, hy, ?_⟩
          rw [List.getElem?_set_ne (fun h => hji h.symm)]
          exact hres
        · by_cases hww : w'' = w
          · subst hww
            rw [hw] at hb
            have : j = i := by simpa using hb.symm
            omega
          · refine Or.inr ⟨w'', ?_⟩
            rw [List.getElem?_set_ne (fun h => hww h.symm)]
            exact hb

theorem poolInv_reach {T R : Type} (items : List T) (limit : Nat) (op : T → Nat → R)
    (s : PoolState R) (hreach : PoolReach items limit op s) : PoolInv items op s := by
  unfold PoolReach at hreach
  induction hreach with
  | refl => exact poolInv_init items op _
  | tail hstep hlast ih => exact poolInv_step items op _ _ ih hlast

end HtmlExport
namespace HtmlExport

/-- Claim C1: under every schedule of the worker pool, a terminal state
carries results of the same length as items with result i equal to the
operation applied to items i, regardless of completion timing; and when
items is empty the initial state is already terminal with an empty
result sequence. -/
theorem mapWithConcurrency_order_and_empty {T R : Type} (items : List T) (limit : Nat)
    (op : T → Nat → R) (s : PoolState R)
    (hreach : PoolReach items limit op s) (hterm : PoolTerminal items.length s) :
    s.results.length = items.length ∧
    (∀ (i : Nat) (hi : i < items.length), s.results[i]? = some (some (op items[i] i))) ∧
    (items = [] →
      PoolTerminal items.length (initState R items.length (workerCount limit items.length)) ∧
      (initState R items.length (workerCount limit items.length)).results = []) := by
  obtain ⟨hlen, hnle, hbusy, hcell⟩ := poolInv_reach items limit op s hreach
  obtain ⟨hnge, hready⟩ := hterm
  refine ⟨hlen, ?_, ?_⟩
  · intro i hi
    rcases hcell i (by omega) with ⟨x, hx, hres⟩ | ⟨w, hb⟩
    · have : x = items[i] := by
        rw [List.getElem?_eq_getElem hi] at hx
        exact Option.some.inj hx.symm
      rw [← this]
      exact hres
    · have hmem : WStatus.busy i ∈ s.workers := List.getElem?_mem hb
      have := hready _ hmem
      simp at this
  · intro hempty
    subst hempty
    exact ⟨⟨by simp [initState], by
      intro w hw
      simp only [initState] at hw
      exact List.eq_of_mem_replicate hw⟩, by simp [initState]⟩

theorem mapWithConcurrency_order_and_empty_witness :
    psW4.results[0]? = some (some 10) ∧ psW4.results[1]? = some (some 21) ∧
    psW4.results.length = 2 := by
  have hreach : PoolReach itemsW 1 opW psW4 := by
    unfold PoolReach
    have s1 : PoolStep itemsW opW psW0 psW1 := by
      have := @PoolStep.claim Nat Nat itemsW opW psW0 0 (by decide) (by decide)
      simpa [psW0, psW1, initState, workerCount, itemsW] using this
    have s2 : PoolStep itemsW opW psW1 psW2 := by
      have := @PoolStep.finish Nat Nat itemsW opW psW1 0 0 10 (by decide) (by decide)
      simpa [psW1, psW2, opW] using this
    have s3 : PoolStep itemsW opW psW2 psW3 := by
      have := @PoolStep.claim Nat Nat itemsW opW psW2 0 (by decide) (by decide)
      simpa [psW2, psW3] using this
    have s4 : PoolStep itemsW opW psW3 psW4 := by
      have := @PoolStep.finish Nat Nat itemsW opW psW3 0 1 20 (by decide) (by decide)
      simpa [psW3, psW4, opW] using this
    exact Relation.ReflTransGen.tail (Relation.ReflTransGen.tail (Relation.ReflTransGen.tail
      (Relation.ReflTransGen.tail Relation.ReflTransGen.refl s1) s2) s3) s4
  have hterm : PoolTerminal itemsW.length psW4 := ⟨by decide, by decide⟩
  have h := mapWithConcurrency_order_and_empty itemsW 1 opW psW4 hreach hterm
  exact ⟨h.2.1 0 (by decide), h.2.1 1 (by decide), h.1⟩

end HtmlExport
namespace HtmlExport

/-! ### Substring and matcher monotonicity lemmas -/

theorem startsWithL_self_append (pat y : List Char) : startsWithL pat (pat ++ y) = true := by
  induction pat with
  | nil => rfl
  | cons c cs ih => simp [startsWithL, ih]

theorem startsWithL_append_right (pat x y : List Char) (h : startsWithL pat x = true) :
    startsWithL pat (x ++ y) = true := by
  induction pat generalizing x with
  | nil => rfl
  | cons c cs ih =>
    cases x with
    | nil => simp [startsWithL] at h
    | cons d ds =>
      simp only [startsWithL, Bool.and_eq_true, decide_eq_true_eq] at h
      simp only [List.cons_append, startsWithL, Bool.and_eq_true, decide_eq_true_eq]
      exact ⟨h.1, ih ds h.2⟩

theorem containsSub_cons (pat : List Char) (c : Char) (l : List Char)
    (h : containsSub pat l = true) : containsSub pat (c :: l) = true := by
  simp only [containsSub, Bool.or_eq_true]
  exact Or.inr h

theorem containsSub_append_left (pat x y : List Char) (h : containsSub pat x = true) :
    containsSub pat (x ++ y) = true := by
  induction x with
  | nil =>
    simp only [containsSub] at h
    cases pat with
    | nil => cases y with
      | nil => simpa using h
      | cons d ds => simp [containsSub, startsWithL]
    | cons c cs => simp [startsWithL] at h
  | cons c cs ih =>
    simp only [containsSub, Bool.or_eq_true] at h
    rcases h with h | h
    · simp only [List.cons_append, containsSub, Bool.or_eq_true]
      exact Or.inl (startsWithL_append_right _ _ _ h)
    · simp only [List.cons_append, containsSub, Bool.or_eq_true]
      exact Or.inr (ih h)

theorem containsSub_append_right (pat x y : List Char) (h : containsSub pat y = true) :
    containsSub pat (x ++ y) = true := by
  induction x with
  | nil => simpa using h
  | cons c cs ih => exact containsSub_cons pat c _ ih

theorem containsSub_of_startsWithL (pat l : List Char) (h : startsWithL pat l = true) :
    containsSub pat l = true := by
  cases l with
  | nil =>
    simp only [containsSub]
    exact h
  | cons c cs =>
    simp only [containsSub, Bool.or_eq_true]
    exact Or.inl h

theorem containsSub_middle (pat x y : List Char) : containsSub pat (x ++ pat ++ y) = true := by
  rw [List.append_assoc]
  exact containsSub_append_right pat x _
    (containsSub_of_startsWithL pat _ (startsWithL_self_append pat y))

theorem afterWsEq_append (r y : List Char) (h : afterWsEq r = true) :
    afterWsEq (r ++ y) = true := by
  induction r with
  | nil => simp [afterWsEq] at h
  | cons c cs ih =>
    simp only [afterWsEq] at h ⊢
    by_cases hc : c = '='
    · simp [hc]
    · simp only [hc, if_false] at h ⊢
      by_cases hw : c.isWhitespace
      · simp only [hw, if_true] at h ⊢
        exact ih h
      · simp [hw] at h

theorem dropLit_append (lit l y r : List Char) (h : dropLit lit l = some r) :
    dropLit lit (l ++ y) = some (r ++ y) := by
  induction lit generalizing l with
  | nil =>
    simp only [dropLit, Option.some.injEq] at h
    subst h
    rfl
  | cons c cs ih =>
    cases l with
    | nil => simp [dropLit] at h
    | cons d ds =>
      simp only [dropLit] at h ⊢
      by_cases hd : d = c
      · simp only [hd, if_true] at h ⊢
        exact ih ds h
      · simp [hd] at h

theorem litEqAt_append (lit l y : List Char) (h : litEqAt lit l = true) :
    litEqAt lit (l ++ y) = true := by
  unfold litEqAt at h ⊢
  cases hdl : dropLit lit l with
  | none => rw [hdl] at h; simp at h
  | some r =>
    rw [hdl] at h
    rw [dropLit_append lit l y r hdl]
    exact afterWsEq_append r y h

theorem hasLitEq_append_left (lit x y : List Char) (h : hasLitEq lit x = true) :
    hasLitEq lit (x ++ y) = true := by
  induction x with
  | nil => simp [hasLitEq] at h
  | cons c cs ih =>
    simp only [hasLitEq, Bool.or_eq_true] at h ⊢
    rcases h with h | h
    · exact Or.inl (litEqAt_append lit _ y h)
    · exact Or.inr (ih h)

theorem hasLitEq_append_right (lit x y : List Char) (h : hasLitEq lit y = true) :
    hasLitEq lit (x ++ y) = true := by
  induction x with
  | nil => simpa using h
  | cons c cs ih =>
    simp only [List.cons_append, hasLitEq, Bool.or_eq_true]
    exact Or.inr ih

end HtmlExport
namespace HtmlExport

/-! ### replaceCF lemmas -/

theorem replaceCF_of_not_hasCQ : ∀ l : List Char, hasCQ l = false → replaceCF l = l := by
  intro l
  induction l with
  | nil => intro _; rfl
  | cons c r ih =>
    intro h
    simp only [hasCQ, Bool.or_eq_false_iff] at h
    unfold replaceCF
    cases htq : tryCQ (c :: r) with
    | some p =>
      rw [htq] at h
      simp at h
    | none => rw [ih h.2]

theorem replaceCF_cons_some (c : Char) (r content rest : List Char)
    (h : tryCQ (c :: r) = some (content, rest)) :
    replaceCF (c :: r) = "class=\"".data ++ content ++ " LexicalTheme__paragraph\"".data ++ rest := by
  simp [replaceCF, h]

theorem replaceCF_cons_none (c : Char) (r : List Char) (h : tryCQ (c :: r) = none) :
    replaceCF (c :: r) = c :: replaceCF r := by
  simp [replaceCF, h]

theorem insertTail_eq : " LexicalTheme__paragraph\"".data = ' ' :: lexToken ++ ['\"'] := by
  decide

theorem replaceCF_of_hasCQ : ∀ l : List Char, hasCQ l = true →
    containsLex (replaceCF l) = true ∧ hasClassEq (replaceCF l) = true := by
  intro l
  induction l with
  | nil => intro h; simp [hasCQ] at h
  | cons c r ih =>
    intro h
    cases htq : tryCQ (c :: r) with
    | some p =>
      rcases p with ⟨content, rest⟩
      rw [replaceCF_cons_some c r content rest htq]
      constructor
      · unfold containsLex
        rw [insertTail_eq]
        have hsh : "class=\"".data ++ content ++ (' ' :: lexToken ++ ['\"']) ++ rest
            = ("class=\"".data ++ content ++ [' ']) ++ lexToken ++ ('\"' :: rest) := by
          simp
        rw [hsh]
        exact containsSub_middle lexToken _ _
      · simp [hasClassEq, hasLitEq, litEqAt, dropLit, afterWsEq]
    | none =>
      rw [replaceCF_cons_none c r htq]
      simp only [hasCQ, htq, Option.isSome_none, Bool.false_or] at h
      obtain ⟨h1, h2⟩ := ih h
      refine ⟨containsSub_cons lexToken c _ h1, ?_⟩
      unfold hasClassEq at h2 ⊢
      simp only [hasLitEq, Bool.or_eq_true]
      exact Or.inr h2

end HtmlExport
namespace HtmlExport

theorem dropLit_subset : ∀ lit l r : List Char, dropLit lit l = some r → ∀ x ∈ r, x ∈ l := by
  intro lit
  induction lit with
  | nil =>
    intro l r h x hx
    simp only [dropLit, Option.some.injEq] at h
    subst h
    exact hx
  | cons c cs ih =>
    intro l r h x hx
    cases l with
    | nil => simp [dropLit] at h
    | cons d ds =>
      simp only [dropLit] at h
      by_cases hd : d = c
      · simp only [hd, if_true] at h
        exact List.mem_cons_of_mem _ (ih ds r h x hx)
      · simp [hd] at h

theorem tryCQ_subset (l content rest : List Char) (h : tryCQ l = some (content, rest)) :
    (∀ x ∈ content, x ∈ l) ∧ (∀ x ∈ rest, x ∈ l) := by
  unfold tryCQ at h
  cases h1 : dropLit "class".data l with
  | none => rw [h1] at h; simp at h
  | some r1 =>
    rw [h1] at h
    dsimp only at h
    have hr1 : ∀ x ∈ r1, x ∈ l := dropLit_subset _ l r1 h1
    cases h2 : r1.dropWhile Char.isWhitespace with
    | nil => rw [h2] at h; simp at h
    | cons e r3 =>
      rw [h2] at h
      dsimp only at h
      have hr3sub : ∀ x ∈ e :: r3, x ∈ r1 := by
        intro x hx
        rw [← h2] at hx
        exact (List.dropWhile_sublist _).subset hx
      by_cases he : e = '='
      · rw [if_pos he] at h
        cases h4 : r3.dropWhile Char.isWhitespace with
        | nil => rw [h4] at h; simp at h
        | cons f r5 =>
          rw [h4] at h
          dsimp only at h
          have hr5sub : ∀ x ∈ f :: r5, x ∈ r3 := by
            intro x hx
            rw [← h4] at hx
            exact (List.dropWhile_sublist _).subset hx
          by_cases hf : f = '\"'
          · rw [if_pos hf] at h
            cases h6 : r5.dropWhile (fun c => c ≠ '\"') with
            | nil => rw [h6] at h; simp at h
            | cons g r6 =>
              rw [h6] at h
              dsimp only at h
              by_cases hg : g = '\"'
              · rw [if_pos hg] at h
                simp only [Option.some.injEq, Prod.mk.injEq] at h
                obtain ⟨hc, hr⟩ := h
                have hmemr5 : ∀ x ∈ r5, x ∈ l := by
                  intro x hx
                  exact hr1 _ (hr3sub _ (List.mem_cons_of_mem _ (hr5sub _ (List.mem_cons_of_mem _ hx))))
                constructor
                · intro x hx
                  rw [← hc] at hx
                  exact hmemr5 _ ((List.takeWhile_sublist _).subset hx)
                · intro x hx
                  rw [← hr] at hx
                  have hx2 : x ∈ g :: r6 := List.mem_cons_of_mem _ hx
                  rw [← h6] at hx2
                  exact hmemr5 _ ((List.dropWhile_sublist _).subset hx2)
              · rw [if_neg hg] at h
                simp at h
          · rw [if_neg hf] at h
            simp at h
      · rw [if_neg he] at h
        simp at h

end HtmlExport
namespace HtmlExport

/-! ### transformAttrs stability -/

theorem hasClassEq_classAppend : hasClassEq classAppend = true := by decide

theorem containsLex_classAppend : containsLex classAppend = true := by decide

theorem hasDirEq_dirAppend (dir : String) : hasDirEq (dirAppend dir) = true := by
  unfold dirAppend
  rw [List.append_assoc]
  exact hasLitEq_append_left _ _ _ (by decide)

theorem hasClassEq_classStep (attrs : List Char) : hasClassEq (classStep attrs) = true := by
  unfold classStep
  by_cases h1 : hasClassEq attrs
  · by_cases h2 : containsLex attrs
    · simpa [h1, h2] using h1
    · by_cases h3 : hasCQ attrs
      · simpa [h1, h2] using (replaceCF_of_hasCQ attrs h3).2
      · rw [if_pos h1, if_neg (by simpa using h2), replaceCF_of_not_hasCQ attrs (by simpa using h3)]
        exact h1
  · rw [if_neg h1]
    exact hasLitEq_append_right _ attrs _ hasClassEq_classAppend

theorem classStep_lex_or (attrs : List Char) :
    containsLex (classStep attrs) = true ∨ hasCQ (classStep attrs) = false := by
  unfold classStep
  by_cases h1 : hasClassEq attrs
  · by_cases h2 : containsLex attrs
    · left
      simpa [h1, h2] using h2
    · by_cases h3 : hasCQ attrs
      · left
        simpa [h1, h2] using (replaceCF_of_hasCQ attrs h3).1
      · right
        rw [if_pos h1, if_neg (by simpa using h2), replaceCF_of_not_hasCQ attrs (by simpa using h3)]
        simpa using h3
  · left
    rw [if_neg h1]
    exact containsSub_append_right _ attrs _ containsLex_classAppend

theorem classStep_eq_of (t : List Char) (hce : hasClassEq t = true)
    (hlo : containsLex t = true ∨ hasCQ t = false) : classStep t = t := by
  unfold classStep
  rw [if_pos hce]
  rcases hlo with h | h
  · rw [if_pos h]
  · by_cases h2 : containsLex t
    · rw [if_pos h2]
    · rw [if_neg h2, replaceCF_of_not_hasCQ t h]

theorem transformAttrs_of_fixed (dir : String) (t : List Char) (hce : hasClassEq t = true)
    (hlo : containsLex t = true ∨ hasCQ t = false) (hde : hasDirEq t = true) :
    transformAttrs dir t = t := by
  unfold transformAttrs
  rw [classStep_eq_of t hce hlo, if_pos hde]

theorem transformAttrs_stable (dir : String) (attrs : List Char)
    (hgood : goodAttrsB dir attrs = true) :
    transformAttrs dir (transformAttrs dir attrs) = transformAttrs dir attrs := by
  by_cases hd : hasDirEq (classStep attrs)
  · have ht : transformAttrs dir attrs = classStep attrs := by
      unfold transformAttrs
      rw [if_pos hd]
    rw [ht]
    exact transformAttrs_of_fixed dir _ (hasClassEq_classStep attrs) (classStep_lex_or attrs) hd
  · have ht : transformAttrs dir attrs = classStep attrs ++ dirAppend dir := by
      unfold transformAttrs
      rw [if_neg hd]
    rw [ht]
    have hce : hasClassEq (classStep attrs ++ dirAppend dir) = true :=
      hasLitEq_append_left _ _ _ (hasClassEq_classStep attrs)
    have hde : hasDirEq (classStep attrs ++ dirAppend dir) = true :=
      hasLitEq_append_right _ _ _ (hasDirEq_dirAppend dir)
    refine transformAttrs_of_fixed dir _ hce ?_ hde
    by_cases h1 : hasClassEq attrs
    · by_cases h2 : containsLex attrs
      · left
        refine containsSub_append_left _ _ _ ?_
        unfold classStep
        rw [if_pos h1, if_pos h2]
        exact h2
      · by_cases h3 : hasCQ attrs
        · left
          refine containsSub_append_left _ _ _ ?_
          unfold classStep
          rw [if_pos h1, if_neg h2]
          exact (replaceCF_of_hasCQ attrs h3).1
        · -- case D: classStep attrs = attrs and the good condition forces no quoted match
          have hcs : classStep attrs = attrs := by
            unfold classStep
            rw [if_pos h1, if_neg (by simpa using h2), replaceCF_of_not_hasCQ attrs (by simpa using h3)]
          rw [hcs]
          right
          rw [hcs] at hd
          unfold goodAttrsB at hgood
          rw [h1] at hgood
          simp only [Bool.not_true, Bool.false_or, Bool.or_eq_true] at hgood
          rcases hgood with ((h | h) | h) | h
          · exact absurd h h2
          · exact absurd h h3
          · exact absurd h hd
          · simpa using h
    · left
      refine containsSub_append_left _ _ _ ?_
      unfold classStep
      rw [if_neg h1]
      exact containsSub_append_right _ attrs _ containsLex_classAppend

end HtmlExport
namespace HtmlExport

theorem replaceCF_mem : ∀ l : List Char, ∀ x, x ∈ replaceCF l →
    x ∈ l ∨ x ∈ ("class=\"".data ++ " LexicalTheme__paragraph\"".data) := by
  intro l
  induction l with
  | nil => intro x hx; simp [replaceCF] at hx
  | cons c r ih =>
    intro x hx
    cases htq : tryCQ (c :: r) with
    | some p =>
      rcases p with ⟨content, rest⟩
      rw [replaceCF_cons_some c r content rest htq] at hx
      have hsub := tryCQ_subset (c :: r) content rest htq
      simp only [List.append_assoc, List.mem_append] at hx
      rcases hx with hx | hx | hx | hx
      · exact Or.inr (List.mem_append.2 (Or.inl hx))
      · exact Or.inl (hsub.1 x hx)
      · exact Or.inr (List.mem_append.2 (Or.inr hx))
      · exact Or.inl (hsub.2 x hx)
    | none =>
      rw [replaceCF_cons_none c r htq] at hx
      rcases List.mem_cons.1 hx with rfl | hx
      · exact Or.inl (List.mem_cons_self _ _)
      · rcases ih x hx with h | h
        · exact Or.inl (List.mem_cons_of_mem _ h)
        · exact Or.inr h

theorem tryCQ_cons_ne (c : Char) (r : List Char) (hc : c ≠ 'c') : tryCQ (c :: r) = none := by
  unfold tryCQ
  have : dropLit "class".data (c :: r) = none := by
    show dropLit ('c' :: "lass".data) (c :: r) = none
    unfold dropLit
    rw [if_neg hc]
  rw [this]

theorem transformAttrs_nil (dir : String) :
    transformAttrs dir [] = classAppend ++ dirAppend dir := by
  unfold transformAttrs classStep
  rw [if_neg (by decide), List.nil_append, if_neg (by decide)]

theorem classStep_cons_head (c : Char) (r : List Char) (hc : c ≠ 'c') :
    ∃ z, classStep (c :: r) = c :: z := by
  unfold classStep
  by_cases h1 : hasClassEq (c :: r)
  · by_cases h2 : containsLex (c :: r)
    · exact ⟨r, by rw [if_pos h1, if_pos h2]⟩
    · refine ⟨replaceCF r, ?_⟩
      rw [if_pos h1, if_neg h2, replaceCF_cons_none c r (tryCQ_cons_ne c r hc)]
  · exact ⟨r ++ classAppend, by rw [if_neg h1]; rfl⟩

theorem transformAttrs_cons_head (dir : String) (c : Char) (r : List Char) (hc : c ≠ 'c') :
    ∃ z, transformAttrs dir (c :: r) = c :: z := by
  obtain ⟨z, hz⟩ := classStep_cons_head c r hc
  unfold transformAttrs
  rw [hz]
  by_cases hd : hasDirEq (c :: z)
  · exact ⟨z, by rw [if_pos hd]⟩
  · exact ⟨z ++ dirAppend dir, by rw [if_neg hd]; rfl⟩

theorem transformAttrs_no_gt (dir : String) (attrs : List Char)
    (hdir : dir = "ltr" ∨ dir = "rtl") (h : '>' ∉ attrs) :
    '>' ∉ transformAttrs dir attrs := by
  have hgtdir : '>' ∉ dirAppend dir := by
    rcases hdir with rfl | rfl <;> decide
  have hcs : '>' ∉ classStep attrs := by
    unfold classStep
    by_cases h1 : hasClassEq attrs
    · by_cases h2 : containsLex attrs
      · rw [if_pos h1, if_pos h2]
        exact h
      · rw [if_pos h1, if_neg h2]
        intro hmem
        rcases replaceCF_mem attrs '>' hmem with hm | hm
        · exact h hm
        · revert hm
          decide
    · rw [if_neg h1]
      intro hmem
      rcases List.mem_append.1 hmem with hm | hm
      · exact h hm
      · revert hm
        decide
  unfold transformAttrs
  by_cases hd : hasDirEq (classStep attrs)
  · rw [if_pos hd]
    exact hcs
  · rw [if_neg hd]
    intro hmem
    rcases List.mem_append.1 hmem with hm | hm
    · exact hcs hm
    · exact hgtdir hm

end HtmlExport
namespace HtmlExport

/-! ### Scanner equation lemmas and structure of pTagSplit -/

theorem alcAux_nil (dir : String) : alcAux dir [] = [] := by
  rw [alcAux]

theorem alcAux_cons_pos (dir : String) (c : Char) (rest attrs : List Char)
    (hc : c = '<' ∧ rest.head? = some 'p') (hp : pTagSplit rest.tail = some attrs) :
    alcAux dir (c :: rest)
      = c :: 'p' :: (transformAttrs dir attrs
          ++ '>' :: alcAux dir (rest.tail.drop (attrs.length + 1))) := by
  rw [alcAux, if_pos hc, hp]

theorem alcAux_cons_pos_none (dir : String) (c : Char) (rest : List Char)
    (hc : c = '<' ∧ rest.head? = some 'p') (hp : pTagSplit rest.tail = none) :
    alcAux dir (c :: rest) = c :: alcAux dir rest := by
  rw [alcAux, if_pos hc, hp]

theorem alcAux_cons_neg (dir : String) (c : Char) (rest : List Char)
    (hc : ¬(c = '<' ∧ rest.head? = some 'p')) :
    alcAux dir (c :: rest) = c :: alcAux dir rest := by
  rw [alcAux, if_neg hc]

theorem goodHtmlB_cons_pos (dir : String) (c : Char) (rest attrs : List Char)
    (hc : c = '<' ∧ rest.head? = some 'p') (hp : pTagSplit rest.tail = some attrs) :
    goodHtmlB dir (c :: rest)
      = (goodAttrsB dir attrs && goodHtmlB dir (rest.tail.drop (attrs.length + 1))) := by
  rw [goodHtmlB, if_pos hc, hp]

theorem goodHtmlB_cons_pos_none (dir : String) (c : Char) (rest : List Char)
    (hc : c = '<' ∧ rest.head? = some 'p') (hp : pTagSplit rest.tail = none) :
    goodHtmlB dir (c :: rest) = goodHtmlB dir rest := by
  rw [goodHtmlB, if_pos hc, hp]

theorem goodHtmlB_cons_neg (dir : String) (c : Char) (rest : List Char)
    (hc : ¬(c = '<' ∧ rest.head? = some 'p')) :
    goodHtmlB dir (c :: rest) = goodHtmlB dir rest := by
  rw [goodHtmlB, if_neg hc]

theorem split_at_gt : ∀ l : List Char, '>' ∈ l →
    l = l.takeWhile (fun d => d ≠ '>')
        ++ '>' :: l.drop ((l.takeWhile (fun d => d ≠ '>')).length + 1) ∧
    (∀ c ∈ l.takeWhile (fun d => d ≠ '>'), c ≠ '>') := by
  intro l
  induction l with
  | nil => intro h; simp at h
  | cons c r ih =>
    intro h
    by_cases hc : c = '>'
    · subst hc
      constructor
      · simp [List.takeWhile_cons]
      · simp [List.takeWhile_cons]
    · have hmem : '>' ∈ r := by
        rcases List.mem_cons.1 h with h1 | h1
        · exact absurd h1.symm hc
        · exact h1
      obtain ⟨ih1, ih2⟩ := ih hmem
      have htw : (c :: r).takeWhile (fun d => d ≠ '>')
          = c :: r.takeWhile (fun d => d ≠ '>') := by
        simp [List.takeWhile_cons, hc]
      constructor
      · rw [htw]
        simp only [List.length_cons, List.cons_append]
        rw [List.drop_succ_cons]
        exact congrArg (c :: ·) ih1
      · rw [htw]
        intro x hx
        rcases List.mem_cons.1 hx with rfl | hx
        · exact hc
        · exact ih2 x hx

theorem pTagSplit_spec (x attrs : List Char) (h : pTagSplit x = some attrs) :
    x = attrs ++ '>' :: x.drop (attrs.length + 1) ∧
    (∀ c ∈ attrs, c ≠ '>') ∧
    (attrs = [] ∨ ∃ c r, attrs = c :: r ∧ c.isWhitespace = true) := by
  cases x with
  | nil => simp [pTagSplit] at h
  | cons c r =>
    unfold pTagSplit at h
    dsimp only at h
    by_cases hc : c = '>'
    · rw [if_pos hc] at h
      have : attrs = [] := by
        simpa using h.symm
      subst this
      subst hc
      exact ⟨by simp, by simp, Or.inl rfl⟩
    · rw [if_neg hc] at h
      by_cases hw : c.isWhitespace && (c :: r).contains '>'
      · rw [if_pos hw] at h
        have hattrs : attrs = (c :: r).takeWhile (fun d => d ≠ '>') := by
          simpa using h.symm
        simp only [Bool.and_eq_true] at hw
        have hmem : '>' ∈ c :: r := by
          have := hw.2
          simpa using this
        obtain ⟨h1, h2⟩ := split_at_gt (c :: r) hmem
        subst hattrs
        refine ⟨h1, h2, Or.inr ?_⟩
        refine ⟨c, r.takeWhile (fun d => d ≠ '>'), ?_, hw.1⟩
        simp [List.takeWhile_cons, hc]
      · rw [if_neg hw] at h
        simp at h

theorem pTagSplit_some_gt (x attrs : List Char) (h : pTagSplit x = some attrs) : '>' ∈ x := by
  have := (pTagSplit_spec x attrs h).1
  rw [this]
  exact List.mem_append.2 (Or.inr (List.mem_cons_self _ _))

theorem alcAux_head? (dir : String) (l : List Char) : (alcAux dir l).head? = l.head? := by
  cases l with
  | nil => rw [alcAux_nil]
  | cons c rest =>
    by_cases hc : c = '<' ∧ rest.head? = some 'p'
    · cases hp : pTagSplit rest.tail with
      | some attrs => rw [alcAux_cons_pos dir c rest attrs hc hp]; rfl
      | none => rw [alcAux_cons_pos_none dir c rest hc hp]; rfl
    · rw [alcAux_cons_neg dir c rest hc]; rfl

theorem alcAux_no_gt_id (dir : String) : ∀ n, ∀ l : List Char, l.length ≤ n → '>' ∉ l →
    alcAux dir l = l := by
  intro n
  induction n with
  | zero =>
    intro l hl _
    have : l = [] := List.eq_nil_of_length_eq_zero (Nat.le_zero.1 hl)
    subst this
    exact alcAux_nil dir
  | succ n ih =>
    intro l hl hgt
    cases l with
    | nil => exact alcAux_nil dir
    | cons c rest =>
      by_cases hc : c = '<' ∧ rest.head? = some 'p'
      · cases hp : pTagSplit rest.tail with
        | some attrs =>
          exfalso
          have : '>' ∈ rest.tail := pTagSplit_some_gt _ _ hp
          exact hgt (List.mem_cons_of_mem _ ((List.tail_sublist rest).subset this))
        | none =>
          rw [alcAux_cons_pos_none dir c rest hc hp]
          rw [ih rest (by simpa using hl) (fun hm => hgt (List.mem_cons_of_mem _ hm))]
      · rw [alcAux_cons_neg dir c rest hc]
        rw [ih rest (by simpa using hl) (fun hm => hgt (List.mem_cons_of_mem _ hm))]

end HtmlExport
namespace HtmlExport

theorem takeWhile_append_all (p : Char → Bool) (u v : List Char)
    (hu : ∀ c ∈ u, p c = true) : (u ++ v).takeWhile p = u ++ v.takeWhile p := by
  induction u with
  | nil => rfl
  | cons c cs ih =>
    rw [List.cons_append, List.takeWhile_cons, if_pos (hu c (List.mem_cons_self _ _)),
      ih (fun x hx => hu x (List.mem_cons_of_mem _ hx))]
    simp

theorem drop_append_succ (u v : List Char) (c : Char) :
    (u ++ c :: v).drop (u.length + 1) = v := by
  induction u with
  | nil => rfl
  | cons d ds ih => simpa using ih

theorem pTagSplit_exact (cw : Char) (z X : List Char) (hw : cw.isWhitespace = true)
    (hgt : '>' ∉ cw :: z) :
    pTagSplit ((cw :: z) ++ '>' :: X) = some (cw :: z) ∧
    ((cw :: z) ++ '>' :: X).drop ((cw :: z).length + 1) = X := by
  refine ⟨?_, drop_append_succ (cw :: z) X '>'⟩
  have hcw : cw ≠ '>' := fun h => hgt (h ▸ List.mem_cons_self _ _)
  unfold pTagSplit
  dsimp only [List.cons_append]
  rw [if_neg hcw]
  have hcontains : (cw :: (z ++ '>' :: X)).contains '>' = true := by
    have : '>' ∈ cw :: (z ++ '>' :: X) :=
      List.mem_cons_of_mem _ (List.mem_append.2 (Or.inr (List.mem_cons_self _ _)))
    exact List.elem_eq_true_of_mem this
  rw [if_pos (by rw [hw, hcontains]; rfl)]
  have htw : (cw :: (z ++ '>' :: X)).takeWhile (fun d => d ≠ '>') = cw :: z := by
    have h1 : ∀ c ∈ cw :: z, (fun d => decide (d ≠ '>')) c = true := by
      intro c hc
      simp only [decide_eq_true_eq]
      exact fun h => hgt (h ▸ hc)
    have h2 := takeWhile_append_all (fun d => decide (d ≠ '>')) (cw :: z) ('>' :: X) h1
    simp only [List.cons_append] at h2
    rw [h2]
    simp [List.takeWhile_cons]
  rw [htw]

end HtmlExport
namespace HtmlExport

theorem alcAux_idem (dir : String) (hdir : dir = "ltr" ∨ dir = "rtl") :
    ∀ n, ∀ l : List Char, l.length ≤ n → goodHtmlB dir l = true →
    alcAux dir (alcAux dir l) = alcAux dir l := by
  intro n
  induction n with
  | zero =>
    intro l hl _
    have : l = [] := List.eq_nil_of_length_eq_zero (Nat.le_zero.1 hl)
    subst this
    rw [alcAux_nil, alcAux_nil]
  | succ n ih =>
    intro l hl hgood
    cases l with
    | nil => rw [alcAux_nil, alcAux_nil]
    | cons c rest =>
      by_cases hc : c = '<' ∧ rest.head? = some 'p'
      · obtain ⟨hc1, hc2⟩ := hc
        subst hc1
        cases rest with
        | nil => simp at hc2
        | cons p0 rest2 =>
          have hp0 : p0 = 'p' := by simpa using hc2
          subst hp0
          cases hp : pTagSplit rest2 with
          | some attrs =>
            have e1 := alcAux_cons_pos dir '<' ('p' :: rest2) attrs ⟨rfl, rfl⟩ hp
            simp only [List.tail_cons] at e1
            have hg := goodHtmlB_cons_pos dir '<' ('p' :: rest2) attrs ⟨rfl, rfl⟩ hp
            simp only [List.tail_cons] at hg
            rw [hg] at hgood
            simp only [Bool.and_eq_true] at hgood
            rw [e1]
            have hspec := pTagSplit_spec rest2 attrs hp
            have hgtattrs : '>' ∉ attrs := fun hm => hspec.2.1 '>' hm rfl
            have hgtTa : '>' ∉ transformAttrs dir attrs :=
              transformAttrs_no_gt dir attrs hdir hgtattrs
            obtain ⟨cw, z, hTaeq, hws⟩ :
                ∃ cw z, transformAttrs dir attrs = cw :: z ∧ cw.isWhitespace = true := by
              rcases hspec.2.2 with rfl | ⟨c0, r0, rfl, hw0⟩
              · refine ⟨' ', "class=\"LexicalTheme__paragraph\"".data ++ dirAppend dir, ?_, by decide⟩
                rw [transformAttrs_nil]
                rfl
              · have hc0 : c0 ≠ 'c' := by
                  intro h
                  subst h
                  revert hw0
                  decide
                obtain ⟨z, hz⟩ := transformAttrs_cons_head dir c0 r0 hc0
                exact ⟨c0, z, hz, hw0⟩
            have hsplit := pTagSplit_exact cw z
              (alcAux dir (rest2.drop (attrs.length + 1))) hws (hTaeq ▸ hgtTa)
            have e2 := alcAux_cons_pos dir '<'
              ('p' :: (transformAttrs dir attrs
                ++ '>' :: alcAux dir (rest2.drop (attrs.length + 1))))
              (transformAttrs dir attrs) ⟨rfl, rfl⟩ (by rw [hTaeq] at hgtTa ⊢; exact hsplit.1)
            simp only [List.tail_cons] at e2
            rw [e2]
            have hdrop : (transformAttrs dir attrs
                ++ '>' :: alcAux dir (rest2.drop (attrs.length + 1))).drop
                  ((transformAttrs dir attrs).length + 1)
                = alcAux dir (rest2.drop (attrs.length + 1)) := by
              rw [hTaeq]
              exact hsplit.2
            rw [hdrop]
            rw [transformAttrs_stable dir attrs hgood.1]
            have hlen2 : (rest2.drop (attrs.length + 1)).length ≤ n := by
              have h1 : (rest2.drop (attrs.length + 1)).length ≤ rest2.length :=
                by simpa using List.length_drop_le (attrs.length + 1) rest2
              have h2 : rest2.length + 2 ≤ n + 1 := by simpa using hl
              omega
            rw [ih (rest2.drop (attrs.length + 1)) hlen2 hgood.2]
          | none =>
            have e1 := alcAux_cons_pos_none dir '<' ('p' :: rest2) ⟨rfl, rfl⟩ hp
            have e1' : alcAux dir ('p' :: rest2) = 'p' :: alcAux dir rest2 := by
              refine alcAux_cons_neg dir 'p' rest2 ?_
              intro h
              exact absurd h.1 (by decide)
            rw [e1, e1']
            have hg := goodHtmlB_cons_pos_none dir '<' ('p' :: rest2) ⟨rfl, rfl⟩ hp
            have hg' : goodHtmlB dir ('p' :: rest2) = goodHtmlB dir rest2 := by
              refine goodHtmlB_cons_neg dir 'p' rest2 ?_
              intro h
              exact absurd h.1 (by decide)
            rw [hg, hg'] at hgood
            -- second pass: pTagSplit of (alcAux dir rest2) must fail the same way
            have hps2 : pTagSplit (alcAux dir rest2) = none := by
              cases rest2 with
              | nil => rw [alcAux_nil]; rfl
              | cons d r2 =>
                have hd : (alcAux dir (d :: r2)).head? = some d := by
                  rw [alcAux_head?]; rfl
                cases halc : alcAux dir (d :: r2) with
                | nil => rfl
                | cons d' z2 =>
                  rw [halc] at hd
                  have hdd : d' = d := by simpa using hd
                  rw [hdd]
                  unfold pTagSplit at hp ⊢
                  dsimp only at hp ⊢
                  by_cases hdg : d = '>'
                  · rw [if_pos hdg] at hp
                    simp at hp
                  · rw [if_neg hdg] at hp ⊢
                    by_cases hdw : d.isWhitespace
                    · have hnc : (d :: r2).contains '>' = false := by
                        by_cases hcon : (d :: r2).contains '>'
                        · rw [if_pos (by rw [hcon, hdw]; rfl)] at hp
                          simp at hp
                        · simpa using hcon
                      have hngt : '>' ∉ d :: r2 := by
                        intro hm
                        have hctr : (d :: r2).contains '>' = true :=
                          List.elem_eq_true_of_mem hm
                        rw [hctr] at hnc
                        simp at hnc
                      have hid : alcAux dir (d :: r2) = d :: r2 :=
                        alcAux_no_gt_id dir (d :: r2).length (d :: r2) (le_refl _) hngt
                      rw [halc] at hid
                      have hz2 : z2 = r2 := (List.cons.inj hid).2
                      subst hz2
                      rw [if_neg (by rw [hnc]; simp)]
                    · rw [if_neg (by rw [(by simpa using hdw : d.isWhitespace = false)]; simp)]
              -- end cases
            have e2 := alcAux_cons_pos_none dir '<' ('p' :: alcAux dir rest2) ⟨rfl, rfl⟩ hps2
            have e2' : alcAux dir ('p' :: alcAux dir rest2)
                = 'p' :: alcAux dir (alcAux dir rest2) := by
              refine alcAux_cons_neg dir 'p' (alcAux dir rest2) ?_
              intro h
              exact absurd h.1 (by decide)
            rw [e2, e2']
            have hlen2 : rest2.length ≤ n := by
              have : rest2.length + 2 ≤ n + 1 := by simpa using hl
              omega
            rw [ih rest2 hlen2 hgood]
      · have e1 := alcAux_cons_neg dir c rest hc
        rw [e1]
        have hcond2 : ¬(c = '<' ∧ (alcAux dir rest).head? = some 'p') := by
          rw [alcAux_head?]
          exact hc
        have e2 := alcAux_cons_neg dir c (alcAux dir rest) hcond2
        rw [e2]
        have hg := goodHtmlB_cons_neg dir c rest hc
        rw [hg] at hgood
        have hlen2 : rest.length ≤ n := by
          have : rest.length + 1 ≤ n + 1 := by simpa using hl
          omega
        rw [ih rest hlen2 hgood]

end HtmlExport
namespace HtmlExport

/-- Claim C4, counterexample: normalizeParagraphs is not idempotent; on
the tag with an unterminated quoted class value the second application
changes the output again. -/
theorem addLexicalClass_not_idempotent :
    addLexicalClass (addLexicalClass "<p class=\"foo>" "ltr") "ltr"
      ≠ addLexicalClass "<p class=\"foo>" "ltr" := by
  simp [addLexicalClass, alcAux, pTagSplit, transformAttrs, classStep, hasClassEq, hasLitEq,
        litEqAt, dropLit, afterWsEq, containsLex, containsSub, startsWithL, lexToken,
        classAppend, dirAppend, hasDirEq, replaceCF, tryCQ, hasCQ]

/-- Claim C4, amended: normalizeParagraphs is idempotent on every html
whose paragraph tags have good attribute text, in particular whenever
every double-quoted class value is properly terminated; the direction
argument ranges over the two values of its TypeScript type. -/
theorem addLexicalClass_idempotent_amended (html dir : String)
    (hdir : dir = "ltr" ∨ dir = "rtl") (hgood : goodHtmlB dir html.data = true) :
    addLexicalClass (addLexicalClass html dir) dir = addLexicalClass html dir := by
  unfold addLexicalClass
  exact congrArg String.mk (alcAux_idem dir hdir html.data.length html.data (le_refl _) hgood)

theorem addLexicalClass_idempotent_amended_witness :
    goodHtmlB "ltr" "<p>x</p><p class=\"a\">y</p>".data = true ∧
    addLexicalClass (addLexicalClass "<p>x</p><p class=\"a\">y</p>" "ltr") "ltr"
      = addLexicalClass "<p>x</p><p class=\"a\">y</p>" "ltr" := by
  have hg : goodHtmlB "ltr" "<p>x</p><p class=\"a\">y</p>".data = true := by
    simp [goodHtmlB, pTagSplit, goodAttrsB, hasClassEq, hasLitEq, litEqAt, dropLit, afterWsEq,
          containsLex, containsSub, startsWithL, lexToken, hasCQ, tryCQ, hasDirEq, dirAppend]
  exact ⟨hg, addLexicalClass_idempotent_amended _ "ltr" (Or.inl rfl) hg⟩

end HtmlExport
namespace HtmlExport

/-! ### rewriteImagePaths lemmas -/

theorem dropWhile_append_all (p : Char → Bool) (u v : List Char)
    (hu : ∀ c ∈ u, p c = true) : (u ++ v).dropWhile p = v.dropWhile p := by
  induction u with
  | nil => rfl
  | cons c cs ih =>
    rw [List.cons_append, List.dropWhile_cons, if_pos (hu c (List.mem_cons_self _ _)),
      ih (fun x hx => hu x (List.mem_cons_of_mem _ hx))]

theorem rwAux_nil (qid : String) : rwAux qid [] = [] := by
  rw [rwAux]

theorem rwAux_cons_some (qid : String) (c : Char) (rest content : List Char) (p : Nat)
    (h : imgMatchAt (c :: rest) = some (p, content)) :
    rwAux qid (c :: rest)
      = (c :: rest).take p
        ++ (if skipSrc content then content else "images/".data ++ qid.data ++ '/' :: content)
        ++ '"' :: rwAux qid (rest.drop (p + content.length)) := by
  rw [rwAux, h]

theorem rwAux_cons_none (qid : String) (c : Char) (rest : List Char)
    (h : imgMatchAt (c :: rest) = none) :
    rwAux qid (c :: rest) = c :: rwAux qid rest := by
  rw [rwAux, h]

theorem imgMatchAt_cons_ne (c : Char) (rest : List Char) (hc : ciEq c '<' = false) :
    imgMatchAt (c :: rest) = none := by
  unfold imgMatchAt
  have : dropLitCI "<img".data (c :: rest) = none := by
    show dropLitCI ('<' :: "img".data) (c :: rest) = none
    unfold dropLitCI
    rw [if_neg (by rw [hc]; simp)]
  rw [this]

theorem rwAux_append_no_lt (qid : String) :
    ∀ u t : List Char, (∀ c ∈ u, ciEq c '<' = false) →
    rwAux qid (u ++ t) = u ++ rwAux qid t := by
  intro u
  induction u with
  | nil => intro t _; rfl
  | cons c cs ih =>
    intro t hu
    rw [List.cons_append,
      rwAux_cons_none qid c (cs ++ t) (imgMatchAt_cons_ne c (cs ++ t) (hu c (List.mem_cons_self _ _))),
      ih t (fun x hx => hu x (List.mem_cons_of_mem _ hx))]
    rfl

theorem findSrcGreedy_none (t : List Char) :
    ∀ u : List Char, (∀ c ∈ u, c.isWhitespace = false ∧ c ≠ '>') →
    findSrcGreedy (u ++ '>' :: t) = none := by
  intro u
  induction u with
  | nil =>
    intro _
    show findSrcGreedy ('>' :: t) = none
    simp [findSrcGreedy]
  | cons c cs ih =>
    intro hu
    rw [List.cons_append]
    unfold findSrcGreedy
    rw [if_neg (hu c (List.mem_cons_self _ _)).2]
    rw [ih (fun x hx => hu x (List.mem_cons_of_mem _ hx))]
    dsimp only
    unfold srcAt
    dsimp only
    rw [if_neg (by rw [(hu c (List.mem_cons_self _ _)).1]; simp)]

theorem srcAt_canonical (src t : List Char) (hq : ∀ c ∈ src, c ≠ '\"') :
    srcAt (' ' :: 's' :: 'r' :: 'c' :: '=' :: '\"' :: (src ++ '\"' :: '>' :: t))
      = if endsWithExt src then some (6, src) else none := by
  have h1 : dropLitCI "src".data ('s' :: 'r' :: 'c' :: '=' :: '\"' :: (src ++ '\"' :: '>' :: t))
      = some ('=' :: '\"' :: (src ++ '\"' :: '>' :: t)) := by
    simp [dropLitCI, ciEq]
  have h2 : ('=' :: '\"' :: (src ++ '\"' :: '>' :: t)).dropWhile Char.isWhitespace
      = '=' :: '\"' :: (src ++ '\"' :: '>' :: t) := by
    rw [List.dropWhile_cons, if_neg (by decide)]
  have h3 : ('\"' :: (src ++ '\"' :: '>' :: t)).dropWhile Char.isWhitespace
      = '\"' :: (src ++ '\"' :: '>' :: t) := by
    rw [List.dropWhile_cons, if_neg (by decide)]
  have h4 : (src ++ '\"' :: '>' :: t).dropWhile (fun d => d ≠ '\"') = '\"' :: '>' :: t := by
    rw [dropWhile_append_all _ src _ (fun c hc => by simpa using hq c hc),
      List.dropWhile_cons, if_neg (by simp)]
  have h5 : (src ++ '\"' :: '>' :: t).takeWhile (fun d => d ≠ '\"') = src := by
    rw [takeWhile_append_all _ src _ (fun c hc => by simpa using hq c hc),
      List.takeWhile_cons, if_neg (by simp)]
    simp
  have h6 : (' ' :: 's' :: 'r' :: 'c' :: '=' :: '\"' :: (src ++ '\"' :: '>' :: t)).length
      - (src ++ '\"' :: '>' :: t).length = 6 := by
    simp
    omega
  unfold srcAt
  dsimp only
  rw [if_pos (show (' ').isWhitespace = true by decide), h1]
  dsimp only
  rw [h2]
  dsimp only
  rw [if_pos rfl, h3]
  dsimp only
  rw [if_pos rfl, h4]
  dsimp only
  rw [if_pos rfl, h5, h6]

end HtmlExport
namespace HtmlExport

theorem goodSrcChar_spec (c : Char) (h : goodSrcChar c = true) :
    c ≠ '"' ∧ c ≠ '>' ∧ ciEq c '<' = false ∧ c.isWhitespace = false := by
  unfold goodSrcChar at h
  simp only [Bool.and_eq_true, Bool.not_eq_true', decide_eq_false_iff_not] at h
  obtain ⟨⟨⟨h1, h2⟩, h3⟩, h4⟩ := h
  refine ⟨h1, h2, ?_, h4⟩
  unfold ciEq
  have hlt : ('<').toLower = '<' := by decide
  rw [hlt]
  simpa using h3

theorem findSrcGreedy_canonical (src t : List Char)
    (hgood : ∀ c ∈ src, goodSrcChar c = true) :
    findSrcGreedy (' ' :: 's' :: 'r' :: 'c' :: '=' :: '"' :: (src ++ '"' :: '>' :: t))
      = if endsWithExt src then some (6, src) else none := by
  have hdeep : findSrcGreedy ('s' :: 'r' :: 'c' :: '=' :: '"' :: (src ++ '"' :: '>' :: t))
      = none := by
    have hshape : 's' :: 'r' :: 'c' :: '=' :: '"' :: (src ++ '"' :: '>' :: t)
        = ('s' :: 'r' :: 'c' :: '=' :: '"' :: (src ++ ['"'])) ++ '>' :: t := by
      simp
    rw [hshape]
    refine findSrcGreedy_none t _ ?_
    intro c hc
    simp only [List.mem_cons, List.mem_append, List.mem_singleton] at hc
    rcases hc with rfl | rfl | rfl | rfl | rfl | hc2 | rfl | hfalse
    · exact ⟨by decide, by decide⟩
    · exact ⟨by decide, by decide⟩
    · exact ⟨by decide, by decide⟩
    · exact ⟨by decide, by decide⟩
    · exact ⟨by decide, by decide⟩
    · obtain ⟨_, hgt, _, hws⟩ := goodSrcChar_spec c (hgood c hc2)
      exact ⟨hws, hgt⟩
    · exact ⟨by decide, by decide⟩
    · simp at hfalse
  unfold findSrcGreedy
  rw [if_neg (by decide), hdeep]
  dsimp only
  refine srcAt_canonical src t ?_
  intro c hc
  exact (goodSrcChar_spec c (hgood c hc)).1

theorem imgMatchAt_canonical (src t : List Char)
    (hgood : ∀ c ∈ src, goodSrcChar c = true) :
    imgMatchAt ('<' :: 'i' :: 'm' :: 'g' :: ' ' :: 's' :: 'r' :: 'c' :: '=' :: '"'
        :: (src ++ '"' :: '>' :: t))
      = if endsWithExt src then some (10, src) else none := by
  unfold imgMatchAt
  have h0 : dropLitCI "<img".data ('<' :: 'i' :: 'm' :: 'g' :: ' ' :: 's' :: 'r' :: 'c'
      :: '=' :: '"' :: (src ++ '"' :: '>' :: t))
      = some (' ' :: 's' :: 'r' :: 'c' :: '=' :: '"' :: (src ++ '"' :: '>' :: t)) := by
    simp [dropLitCI, ciEq]
  rw [h0]
  dsimp only
  rw [findSrcGreedy_canonical src t hgood]
  by_cases he : endsWithExt src = true
  · rw [if_pos he, if_pos he]
  · rw [if_neg he, if_neg he]

end HtmlExport
namespace HtmlExport

theorem mkImg_data (src : String) (t : List Char) :
    (mkImg src).data ++ t
      = '<' :: 'i' :: 'm' :: 'g' :: ' ' :: 's' :: 'r' :: 'c' :: '=' :: '"'
          :: (src.data ++ '"' :: '>' :: t) := by
  simp [mkImg]

theorem rewriteSrc_skip (qid src : String) (h : skipSrc src.data = true) :
    rewriteSrc qid src = src := by
  unfold rewriteSrc
  rw [if_pos h]

theorem rewriteSrc_noext (qid src : String) (h : endsWithExt src.data = false) :
    rewriteSrc qid src = src := by
  unfold rewriteSrc
  by_cases hs : skipSrc src.data = true
  · rw [if_pos hs]
  · rw [if_neg hs, if_neg (by rw [h]; simp)]

theorem rewriteSrc_rewrite (qid src : String) (hs : skipSrc src.data = false)
    (he : endsWithExt src.data = true) :
    rewriteSrc qid src = "images/" ++ qid ++ "/" ++ src := by
  unfold rewriteSrc
  rw [if_neg (by rw [hs]; simp), if_pos he]

theorem rwAux_tag (qid src : String) (t : List Char) (hgood : goodSrc src = true) :
    rwAux qid ((mkImg src).data ++ t) = (mkImg (rewriteSrc qid src)).data ++ rwAux qid t := by
  have hgoodc : ∀ c ∈ src.data, goodSrcChar c = true := by
    intro c hc
    exact List.all_eq_true.1 hgood c hc
  rw [mkImg_data]
  by_cases he : endsWithExt src.data = true
  · -- the tag matches; the src is either skipped or rewritten
    have hm := imgMatchAt_canonical src.data t hgoodc
    rw [if_pos he] at hm
    have e1 := rwAux_cons_some qid '<'
      ('i' :: 'm' :: 'g' :: ' ' :: 's' :: 'r' :: 'c' :: '=' :: '"' :: (src.data ++ '"' :: '>' :: t))
      src.data 10 hm
    rw [e1]
    have htake : ('<' :: 'i' :: 'm' :: 'g' :: ' ' :: 's' :: 'r' :: 'c' :: '=' :: '"'
        :: (src.data ++ '"' :: '>' :: t)).take 10
        = '<' :: 'i' :: 'm' :: 'g' :: ' ' :: 's' :: 'r' :: 'c' :: '=' :: '"' :: [] := by
      rfl
    have hdrop : ('i' :: 'm' :: 'g' :: ' ' :: 's' :: 'r' :: 'c' :: '=' :: '"'
        :: (src.data ++ '"' :: '>' :: t)).drop (10 + src.data.length) = '>' :: t := by
      have hshape : 'i' :: 'm' :: 'g' :: ' ' :: 's' :: 'r' :: 'c' :: '=' :: '"'
          :: (src.data ++ '"' :: '>' :: t)
          = ('i' :: 'm' :: 'g' :: ' ' :: 's' :: 'r' :: 'c' :: '=' :: '"'
              :: (src.data ++ ['"'])) ++ '>' :: t := by
        simp
      rw [hshape]
      have hlen : ('i' :: 'm' :: 'g' :: ' ' :: 's' :: 'r' :: 'c' :: '=' :: '"'
          :: (src.data ++ ['"'])).length = 10 + src.data.length := by
        simp
        omega
      rw [← hlen, List.drop_left]
    rw [htake, hdrop]
    have hgt : rwAux qid ('>' :: t) = '>' :: rwAux qid t := by
      refine rwAux_cons_none qid '>' t (imgMatchAt_cons_ne '>' t (by decide))
    rw [hgt]
    by_cases hs : skipSrc src.data = true
    · rw [if_pos hs, rewriteSrc_skip qid src hs, mkImg_data]
      simp
    · rw [if_neg hs, rewriteSrc_rewrite qid src (by simpa using hs) he, mkImg_data]
      simp
  · -- no recognized extension: the regex does not match anywhere in the tag
    have hm := imgMatchAt_canonical src.data t hgoodc
    rw [if_neg he] at hm
    have e1 := rwAux_cons_none qid '<'
      ('i' :: 'm' :: 'g' :: ' ' :: 's' :: 'r' :: 'c' :: '=' :: '"' :: (src.data ++ '"' :: '>' :: t))
      hm
    rw [e1]
    have hshape : 'i' :: 'm' :: 'g' :: ' ' :: 's' :: 'r' :: 'c' :: '=' :: '"'
        :: (src.data ++ '"' :: '>' :: t)
        = ('i' :: 'm' :: 'g' :: ' ' :: 's' :: 'r' :: 'c' :: '=' :: '"'
            :: (src.data ++ '"' :: '>' :: [])) ++ t := by
      simp
    rw [hshape, rwAux_append_no_lt qid _ t ?hnl]
    case hnl =>
      intro c hc
      simp only [List.mem_cons, List.mem_append, List.mem_singleton] at hc
      rcases hc with rfl | rfl | rfl | rfl | rfl | rfl | rfl | rfl | rfl | hc2 | rfl | rfl | hfalse
      · decide
      · decide
      · decide
      · decide
      · decide
      · decide
      · decide
      · decide
      · decide
      · exact (goodSrcChar_spec c (hgoodc c hc2)).2.2.1
      · decide
      · decide
      · simp at hfalse
    rw [rewriteSrc_noext qid src (by simpa using he), mkImg_data]
    simp

theorem rewriteImagePaths_tags (qid : String) :
    ∀ srcs : List String, (∀ s ∈ srcs, goodSrc s = true) →
    rewriteImagePaths (joinAll (srcs.map mkImg)) qid
      = joinAll (srcs.map (fun s => mkImg (rewriteSrc qid s))) := by
  intro srcs
  induction srcs with
  | nil =>
    intro _
    unfold rewriteImagePaths
    rw [show (joinAll (List.map mkImg [])).data = [] from rfl, rwAux_nil]
    rfl
  | cons s rest ih =>
    intro hgood
    unfold rewriteImagePaths at ih ⊢
    simp only [List.map_cons, joinAll]
    have hdata : ((mkImg s ++ joinAll (rest.map mkImg))).data
        = (mkImg s).data ++ (joinAll (rest.map mkImg)).data := by
      simp
    rw [hdata, rwAux_tag qid s _ (hgood s (List.mem_cons_self _ _))]
    have ih2 := ih (fun x hx => hgood x (List.mem_cons_of_mem _ hx))
    have ih3 : rwAux qid (joinAll (rest.map mkImg)).data
        = (joinAll (rest.map (fun x => mkImg (rewriteSrc qid x)))).data := by
      have := congrArg String.data ih2
      simpa using this
    rw [ih3]
    apply String.ext
    simp

end HtmlExport
namespace HtmlExport

/-- Claim C5: on any sequence of img tags with well-behaved src values,
rewriteImagePaths rewrites each src with a recognized image extension
to images/id/src, while absolute http(s) URLs and already-canonical
images/ paths pass through unchanged; in particular foo.svg under Q1
becomes images/Q1/foo.svg. -/
theorem rewriteImagePaths_spec (qid : String) (srcs : List String)
    (hgood : ∀ s ∈ srcs, goodSrc s = true) :
    rewriteImagePaths (joinAll (srcs.map mkImg)) qid
      = joinAll (srcs.map (fun s => mkImg (rewriteSrc qid s))) ∧
    rewriteSrc "Q1" "foo.svg" = "images/Q1/foo.svg" ∧
    rewriteImagePaths (mkImg "foo.svg") "Q1" = mkImg "images/Q1/foo.svg" ∧
    rewriteImagePaths (mkImg "http://a.com/x.svg") "Q1" = mkImg "http://a.com/x.svg" ∧
    rewriteImagePaths (mkImg "images/Q2/x.svg") "Q1" = mkImg "images/Q2/x.svg" := by
  refine ⟨rewriteImagePaths_tags qid srcs hgood, by decide, ?_, ?_, ?_⟩ <;>
    simp [rewriteImagePaths, rwAux, imgMatchAt, dropLitCI, ciEq, findSrcGreedy, srcAt,
      endsWithExt, imageExts, endsWithL, skipSrc, startsWithL, mkImg]

theorem rewriteImagePaths_spec_witness :
    rewriteImagePaths (joinAll (["a.svg", "http://h/b.svg", "c.txt"].map mkImg)) "Q1"
      = joinAll (["a.svg", "http://h/b.svg", "c.txt"].map (fun s => mkImg (rewriteSrc "Q1" s))) ∧
    rewriteSrc "Q1" "a.svg" = "images/Q1/a.svg" ∧
    rewriteSrc "Q1" "http://h/b.svg" = "http://h/b.svg" ∧
    rewriteSrc "Q1" "c.txt" = "c.txt" :=
  ⟨(rewriteImagePaths_spec "Q1" ["a.svg", "http://h/b.svg", "c.txt"] (by decide)).1,
   by decide, by decide, by decide⟩

end HtmlExport
